import Mathlib

/-!
Verification of the global_liquidity pipeline.

Shallow embedding of the core numeric pipeline of the repository:
series normalization (`03_build_net_liquidity_fixed_units.py`,
`04_build_global_cb_assets_usd.py`, `run_ingest_incremental.py`),
multi-series alignment (`02_build_net_liquidity.py`,
`04_build_global_cb_assets_usd.py`), the feature master
(`05_build_gli_master.py`), and the regime-inference scripts
(`06_train_liquidity_regime_gmm.py`, `07_train_liquidity_regime_hmm.py`).

Machine floats are modelled by `FVal`: an exact rational together with
the IEEE special values NaN / +inf / -inf, with the arithmetic cases the
pipeline exercises (finite arithmetic, division by zero, NaN
propagation) spelled out.  pandas missing values are `FVal.nan`.
Timestamps are `Nat`, exact numeric values are `Rat`.
-/

namespace GlobalLiquidity

/-- IEEE-style value domain used by the pandas columns: a rational, or one
of the special values NaN, +infinity, -infinity.  `nan` doubles as the
pandas missing value. -/
inductive FVal where
  | nan : FVal
  | inf : FVal
  | ninf : FVal
  | val : ℚ → FVal
deriving DecidableEq, Repr

namespace FVal

/-- IEEE subtraction on the modelled domain. -/
def fsub : FVal → FVal → FVal
  | nan, _ => nan
  | _, nan => nan
  | inf, inf => nan
  | inf, _ => inf
  | ninf, ninf => nan
  | ninf, _ => ninf
  | val _, inf => ninf
  | val _, ninf => inf
  | val a, val b => val (a - b)

/-- IEEE division on the modelled domain: a finite nonzero numerator over
zero gives a signed infinity, 0/0 gives NaN, NaN propagates. -/
def fdiv : FVal → FVal → FVal
  | nan, _ => nan
  | _, nan => nan
  | inf, inf => nan
  | inf, ninf => nan
  | ninf, inf => nan
  | ninf, ninf => nan
  | inf, val b => if b < 0 then ninf else inf
  | ninf, val b => if b < 0 then inf else ninf
  | val _, inf => val 0
  | val _, ninf => val 0
  | val a, val b =>
      if b = 0 then
        if a = 0 then nan else if a > 0 then inf else ninf
      else val (a / b)

/-- Whether the value is a finite number (neither NaN nor infinite). -/
def isNum : FVal → Bool
  | val _ => true
  | _ => false

end FVal

open FVal

/-- `05_build_gli_master.py`: `df[col].pct_change(k)` — pandas computes
`v[t] / v[t-k] - 1`, with the first `k` rows missing. -/
def pctChange (s : List FVal) (k : ℕ) : List FVal :=
  (List.range s.length).map fun t =>
    if k ≤ t then fsub (fdiv (s.getD t nan) (s.getD (t - k) nan)) (val 1)
    else nan

/-- The trailing window of `w` rows ending at row `t` (rows `t-w+1 .. t`). -/
def windowAt (s : List FVal) (w t : ℕ) : List FVal :=
  (s.take (t + 1)).drop (t + 1 - w)

/-- Whether every entry of the list is a finite numeric value (pandas
rolling statistics with default `min_periods = w` require `w` non-missing
observations in the window). -/
def allNum (l : List FVal) : Bool := l.all isNum

/-- The rationals carried by a list of (assumed finite) float values. -/
def ratsOf (l : List FVal) : List ℚ :=
  l.filterMap fun x => match x with | val q => some q | _ => none

/-- `05_build_gli_master.py`, `zscore`: `s.rolling(window).mean()` at
row `t` — missing until the window holds `w` finite observations. -/
def rollingMean (s : List FVal) (w t : ℕ) : FVal :=
  let win := windowAt s w t
  if w ≤ t + 1 ∧ allNum win = true then val ((ratsOf win).sum / w)
  else nan

/-- Population variance of the `w`-row trailing window (the quantity whose
square root `s.rolling(window).std(ddof=0)` returns): `Σ (x - μ)² / w`. -/
def rollingVar (s : List FVal) (w t : ℕ) : FVal :=
  let win := windowAt s w t
  if w ≤ t + 1 ∧ allNum win = true then
    let μ : ℚ := (ratsOf win).sum / w
    val (((ratsOf win).map fun x => (x - μ) ^ 2).sum / w)
  else nan

/-- `05_build_gli_master.py`, `zscore`: `s.rolling(window).std(ddof=0)`,
the population standard deviation.  The real square root of the float
library is abstracted as a parameter `sqrt : ℚ → ℚ`. -/
def rollingStd (sqrt : ℚ → ℚ) (s : List FVal) (w t : ℕ) : FVal :=
  match rollingVar s w t with
  | val q => val (sqrt q)
  | _ => nan

/-- `05_build_gli_master.py`, `zscore`: `(s - mu) / sd` with
`mu = s.rolling(window).mean()` and `sd = s.rolling(window).std(ddof=0)`. -/
def zscore (sqrt : ℚ → ℚ) (s : List FVal) (w : ℕ) : List FVal :=
  (List.range s.length).map fun t =>
    fdiv (fsub (s.getD t nan) (rollingMean s w t)) (rollingStd sqrt s w t)

/-- Average-rank percentile of the last element of a (finite-valued)
window, as computed by `pd.Series(x).rank(pct=True).iloc[-1]`: ties take
the average rank position, and the rank is divided by the window size. -/
def lastRankPct (win : List ℚ) : ℚ :=
  match win.getLast? with
  | none => 0
  | some x =>
      (((win.filter fun y => y < x).length : ℚ) +
        (((win.filter fun y => y = x).length : ℚ) + 1) / 2) / win.length

/-- `05_build_gli_master.py`, `pct_rank`:
`s.rolling(window).apply(lambda x: pd.Series(x).rank(pct=True).iloc[-1])`. -/
def pctRank (s : List FVal) (w : ℕ) : List FVal :=
  (List.range s.length).map fun t =>
    let win := windowAt s w t
    if w ≤ t + 1 ∧ allNum win = true then val (lastRankPct (ratsOf win))
    else nan

/-! ### Multi-series alignment
(`02_build_net_liquidity.py` lines 40–47, `04_build_global_cb_assets_usd.py`
lines 48–59, `03_build_net_liquidity_fixed_units.py` step 3):
outer merge on `date`, chronological sort, column-wise `ffill`, then
`dropna` over all series columns. -/

/-- A canonical series: (timestamp, value) pairs. -/
abbrev Series := List (ℕ × ℚ)

/-- Insert a timestamp into a strictly sorted list of timestamps,
skipping it if already present (the key set of an outer join is the
sorted union of the input key sets). -/
def insertKey (x : ℕ) : List ℕ → List ℕ
  | [] => [x]
  | y :: ys =>
      if x < y then x :: y :: ys
      else if x = y then y :: ys
      else y :: insertKey x ys

/-- Sorted union of all timestamps of the input series: the row index of
the outer merge after `sort_values("date")`. -/
def unionDates (series : List Series) : List ℕ :=
  series.foldr (fun s acc => (s.map Prod.fst).foldr insertKey acc) []

/-- Exact-key lookup in a list of key/value pairs (the cell an equi-join
puts in a column at a given date, and the dict lookups of the relabeling
scripts; `none` is a missing cell / KeyError). -/
def lookupKey {α : Type} (d : ℕ) : List (ℕ × α) → Option α
  | [] => none
  | (k, v) :: rest => if k = d then some v else lookupKey d rest

/-- `df[col].ffill()`: replace each missing cell by the last preceding
non-missing cell of the same column, carrying `c` in from above. -/
def ffillCol (c : Option ℚ) : List (Option ℚ) → List (Option ℚ)
  | [] => []
  | none :: rest => c :: ffillCol c rest
  | some v :: rest => some v :: ffillCol (some v) rest

/-- One series' column over the aligned row index, after forward fill. -/
def alignedCol (s : Series) (dates : List ℕ) : List (Option ℚ) :=
  ffillCol none (dates.map fun d => lookupKey d s)

/-- Whether an aligned row has every column populated (the complement of
the rows removed by `dropna(subset=all columns)`). -/
def rowFull (row : List (Option ℚ)) : Bool := row.all Option.isSome

/-- The aligned table: outer merge on date, sort, forward fill each
column independently, drop rows with any missing column.  Row `i` of the
merged frame is its date together with cell `i` of every filled column. -/
def alignTable (series : List Series) : List (ℕ × List (Option ℚ)) :=
  let dates := unionDates series
  let cols := series.map fun s => alignedCol s dates
  (((List.range dates.length).map fun i =>
      (dates.getD i 0, cols.map fun col => col.getD i none)).filter
    fun r => rowFull r.2)

/-- Last observed value of a series at a timestamp `≤ t` (the value the
spec says every retained, forward-filled cell must equal). -/
def lastObsAt (s : Series) (t : ℕ) : Option ℚ :=
  match s with
  | [] => none
  | (k, v) :: rest =>
      if k ≤ t then
        match lastObsAt rest t with
        | none => some v
        | some w => some w
      else lastObsAt rest t

/-! ### Feature-master join (`05_build_gli_master.py` lines 58–59):
`net.merge(gcb, on="date", how="inner").sort_values("date")`. -/

/-- Stable insertion into a list of date-keyed rows, keeping date order. -/
def insertRow {α : Type} (r : ℕ × α) : List (ℕ × α) → List (ℕ × α)
  | [] => [r]
  | x :: xs => if r.1 < x.1 then r :: x :: xs else x :: insertRow r xs

/-- `sort_values("date")` on a list of date-keyed rows. -/
def sortByDate {α : Type} (l : List (ℕ × α)) : List (ℕ × α) :=
  l.foldr insertRow []

/-- Inner merge on `date` of two date-unique tables, then sort by date:
a row survives iff its date appears in both inputs. -/
def innerMerge {α β : Type} (xs : List (ℕ × α)) (ys : List (ℕ × β)) :
    List (ℕ × α × β) :=
  sortByDate (xs.filterMap fun p =>
    match lookupKey p.1 ys with
    | some b => some (p.1, p.2, b)
    | none => none)

/-! ### Series normalization
(`run_ingest_incremental.py`, `_merge_append`, lines 56–72, composed with
`03_build_net_liquidity_fixed_units.py`, `_read_series`, lines 20–34 /
`04_build_global_cb_assets_usd.py`, `_read`): coercion with failures as
`none`, dedup by date keeping the last occurrence, drop failed rows,
sort by date. -/

/-- A raw record after coercion attempts: `none` components are values
pandas `to_datetime`/`to_numeric` with `errors="coerce"` turned into
NaT/NaN. -/
abbrev RawRec := Option ℕ × Option ℚ

/-- `drop_duplicates(subset=["date"], keep="last")`: a record survives
iff no later record carries the same date key. -/
def dedupLastByDate : List RawRec → List RawRec
  | [] => []
  | r :: rest =>
      if rest.any fun r2 => r2.1 = r.1 then dedupLastByDate rest
      else r :: dedupLastByDate rest

/-- `_merge_append` on already-coerced records: concatenate old and new,
dedup by date keeping last, drop rows whose date failed coercion, sort
by date. -/
def mergeAppend (old new : List RawRec) : List (ℕ × Option ℚ) :=
  sortByDate ((dedupLastByDate (old ++ new)).filterMap fun r =>
    match r.1 with
    | some d => some (d, r.2)
    | none => none)

/-- `_read_series` / `_read` value handling on the merged file: drop the
rows whose value failed numeric coercion (the date side is already
coerced), keeping date order. -/
def readSeries (l : List (ℕ × Option ℚ)) : Series :=
  sortByDate (l.filterMap fun r =>
    match r.2 with
    | some v => some (r.1, v)
    | none => none)

/-- The composite series normalizer: incremental merge-append of the raw
file followed by the builder-side read. -/
def normalizeSeries (old new : List RawRec) : Series :=
  readSeries (mergeAppend old new)

/-! ### Transition-matrix smoothing
(`07_train_liquidity_regime_hmm.py`, `_smooth_transmat`, lines 25–33):
`T = T + eps; T = T / T.sum(axis=1, keepdims=True)`. -/

/-- Add the pseudocount `eps` to every entry and renormalize each row by
its (post-pseudocount) sum. -/
def smoothTransmat (T : List (List ℚ)) (eps : ℚ) : List (List ℚ) :=
  T.map fun row =>
    let r := row.map fun x => x + eps
    r.map fun x => x / r.sum

/-! ### Multi-restart fitting
(`07_train_liquidity_regime_hmm.py`, `_fit_best_hmm`, lines 36–65):
fixed seeds `range(42, 42 + n_tries)`, identical hyperparameters, smooth
each fitted model, score it, keep the strictly-better fit. -/

/-- The seed list used by `_fit_best_hmm`. -/
def restartSeeds (nTries : ℕ) : List ℕ :=
  (List.range nTries).map fun i => 42 + i

/-- The restart loop: `fit` builds and fits a model from a seed (the
hyperparameters are fixed inside it), `smooth` is the transition
smoothing applied before scoring, `score` is `model.score(Xs)`; the
accumulator keeps `(best_model, best_score)` and is replaced only on a
strictly greater score (`best_score` starts at `-inf`, modelled by
`none`). -/
def bestStep {α : Type} (g : ℕ → α) (score : α → ℚ)
    (best : Option (α × ℚ)) (seed : ℕ) : Option (α × ℚ) :=
  let m := g seed
  let s := score m
  match best with
  | none => some (m, s)
  | some (bm, bs) => if s > bs then some (m, s) else some (bm, bs)

/-- The full restart search of `_fit_best_hmm`. -/
def fitBestHMM {α : Type} (fit : ℕ → α) (smooth : α → α) (score : α → ℚ)
    (nTries : ℕ) : Option (α × ℚ) :=
  (restartSeeds nTries).foldl (bestStep (fun seed => smooth (fit seed)) score)
    none

/-! ### Canonical relabeling
(`07_train_liquidity_regime_hmm.py`, `_order_states_by_expansiveness`,
lines 16–22, and `main`, lines 107–125;
`06_train_liquidity_regime_gmm.py`, `main`, lines 54–71). -/

/-- A fitted row's two expansiveness features `(netliq_z252, gcb_z252)`. -/
abbrev FeatRow := ℚ × ℚ

/-- Rows of the groupby bucket of one raw state. -/
def stateRows (rows : List FeatRow) (states : List ℕ) (s : ℕ) :
    List FeatRow :=
  ((rows.zip states).filter fun p => p.2 = s).map Prod.fst

/-- `groupby("state")[["netliq_z252","gcb_z252"]].mean()` followed by
`means["netliq_z252"] + means["gcb_z252"]`: the expansiveness score of
one raw state. -/
def stateScore (rows : List FeatRow) (states : List ℕ) (s : ℕ) : ℚ :=
  let g := stateRows rows states s
  (g.map Prod.fst).sum / g.length + (g.map Prod.snd).sum / g.length

/-- The distinct raw states present in the assignment (the groupby keys). -/
def observedStates (states : List ℕ) : List ℕ := states.dedup

/-- Insert a state into a list already sorted by strictly descending
score. -/
def insertDesc (score : ℕ → ℚ) (s : ℕ) : List ℕ → List ℕ
  | [] => [s]
  | x :: xs =>
      if score x < score s then s :: x :: xs else x :: insertDesc score s xs

/-- `score.sort_values(ascending=False).index.tolist()`: the observed raw
states sorted by descending expansiveness score. -/
def orderStates (rows : List FeatRow) (states : List ℕ) : List ℕ :=
  (observedStates states).foldr (insertDesc (stateScore rows states)) []

/-- The dict `{old_state: new_regime for new_regime, old_state in
enumerate(order)}` as an association list. -/
def mappingPairs (order : List ℕ) : List (ℕ × ℕ) :=
  order.enum.map fun p => (p.2, p.1)

/-- Raw-state-to-canonical-regime mapping of either backend. -/
def stateMap (rows : List FeatRow) (states : List ℕ) (s : ℕ) : Option ℕ :=
  lookupKey s (mappingPairs (orderStates rows states))

/-- Output row of the static (GMM) backend: canonical regime plus the
three posterior columns `regime_p0, regime_p1, regime_p2`. -/
structure GmmRow where
  regime : Option ℕ
  p0 : ℚ
  p1 : ℚ
  p2 : ℚ
deriving DecidableEq, Repr

/-- `06_train_liquidity_regime_gmm.py`, lines 54–71: the posterior
columns are set from the raw `probs[:, k]` (before the mapping is even
computed) and the canonical `regime` column is `regime_raw.map(mapping)`.
The posterior columns are NOT permuted by the mapping. -/
def gmmRelabel (rows : List FeatRow) (states : List ℕ)
    (probs : List (ℚ × ℚ × ℚ)) : List GmmRow :=
  (states.zip probs).map fun p =>
    { regime := stateMap rows states p.1
      p0 := p.2.1, p1 := p.2.2.1, p2 := p.2.2.2 }

/-- Output of the sequential (HMM) backend's relabeling step. -/
structure HmmOut where
  regimes : List ℕ
  posts : List (ℚ × ℚ × ℚ)
  trans : List (List ℚ)
deriving DecidableEq, Repr

/-- Component `k` of a posterior triple. -/
def tripGet (p : ℚ × ℚ × ℚ) (k : ℕ) : ℚ :=
  if k = 0 then p.1 else if k = 1 then p.2.1 else p.2.2

/-- Build a posterior triple from its components. -/
def tripMk (f : ℕ → ℚ) : ℚ × ℚ × ℚ := (f 0, f 1, f 2)

/-- The loop `for old_state in range(3): p_regime[:, mapping[old_state]]
= post[:, old_state]` for one row: fails (KeyError) when a raw state in
`range(3)` is absent from the mapping. -/
def reorderPost (m : ℕ → Option ℕ) (post : ℚ × ℚ × ℚ) :
    Option (ℚ × ℚ × ℚ) :=
  [0, 1, 2].foldl
    (fun acc old =>
      acc.bind fun f =>
        match m old with
        | none => none
        | some new => some fun j => if j = new then tripGet post old else f j)
    (some fun _ => 0)
    |>.map tripMk

/-- `inv = {v: k for k, v in mapping.items()}; order_raw = [inv[0],
inv[1], inv[2]]`: fails (KeyError) when the mapping is not onto
`{0, 1, 2}`. -/
def invOrder (order : List ℕ) : Option (List ℕ) :=
  [0, 1, 2].mapM fun i =>
    lookupKey i ((mappingPairs order).map fun p => (p.2, p.1))

/-- `trans_raw[np.ix_(order_raw, order_raw)]` on a 3×3 matrix given as
nested lists. -/
def permuteTrans (orderRaw : List ℕ) (T : List (List ℚ)) : List (List ℚ) :=
  orderRaw.map fun i => orderRaw.map fun j => ((T.getD i []).getD j 0)

/-- `07_train_liquidity_regime_hmm.py`, `main`, lines 107–125: compute
the mapping, relabel the per-row hard states (`map(mapping).astype(int)`,
which faults on an unmapped state), reorder every posterior row by the
mapping (KeyError when a raw state of `range(3)` is unobserved), and
permute the transition matrix rows and columns by the inverse mapping. -/
def hmmRelabel (rows : List FeatRow) (states : List ℕ)
    (posts : List (ℚ × ℚ × ℚ)) (T : List (List ℚ)) :
    Except String HmmOut :=
  let m := stateMap rows states
  match states.mapM m with
  | none => Except.error "astype"
  | some regimes =>
      match posts.mapM (reorderPost m) with
      | none => Except.error "KeyError"
      | some ps =>
          match invOrder (orderStates rows states) with
          | none => Except.error "KeyError"
          | some orderRaw => Except.ok ⟨regimes, ps, permuteTrans orderRaw T⟩

/-! ## Supporting lemmas -/

lemma sum_map_add_const (l : List ℚ) (c : ℚ) :
    (l.map fun x => x + c).sum = l.sum + l.length * c := by
  induction l with
  | nil => simp
  | cons a t ih => simp [ih]; ring

lemma sum_map_div (l : List ℚ) (c : ℚ) :
    (l.map fun x => x / c).sum = l.sum / c := by
  induction l with
  | nil => simp
  | cons a t ih => simp [ih, add_div]

/-! ## C2: transition-matrix smoothing -/

/-- C2.  After smoothing with pseudocount `eps > 0`, for any input matrix
with non-negative entries and positive row sums, every entry of the
result is strictly positive and every row of the result sums to `1`
within `1e-6` (indeed exactly). -/
theorem C2_smooth_transmat (T : List (List ℚ)) (eps : ℚ) (heps : 0 < eps)
    (hT : ∀ row ∈ T, (∀ x ∈ row, 0 ≤ x) ∧ 0 < row.sum) :
    ∀ row ∈ smoothTransmat T eps,
      (∀ x ∈ row, 0 < x) ∧ |row.sum - 1| ≤ 1 / 1000000 := by
  intro row hrow
  simp only [smoothTransmat, List.mem_map] at hrow
  obtain ⟨r0, hr0, rfl⟩ := hrow
  obtain ⟨hpos, hsum⟩ := hT r0 hr0
  have hs : 0 < (r0.map fun x => x + eps).sum := by
    rw [sum_map_add_const]
    have : (0:ℚ) ≤ r0.length * eps := by positivity
    linarith
  constructor
  · intro x hx
    simp only [List.mem_map] at hx
    obtain ⟨y, ⟨z, hz, rfl⟩, rfl⟩ := hx
    exact div_pos (by linarith [hpos z hz]) hs
  · rw [sum_map_div, div_self (ne_of_gt hs)]
    norm_num

/-- C2 witness: the smoothing property at the concrete matrix
`[[0,1],[1,0]]` (which contains exact zeros) and `eps = 1/1000`. -/
theorem C2_smooth_transmat_witness :
    (0 < (1 / 1000 : ℚ)) ∧
    ∀ row ∈ smoothTransmat [[0, 1], [1, 0]] (1 / 1000),
      (∀ x ∈ row, 0 < x) ∧ |row.sum - 1| ≤ 1 / 1000000 :=
  ⟨by norm_num,
    C2_smooth_transmat [[0, 1], [1, 0]] (1 / 1000) (by norm_num)
      (by
        intro row hrow
        fin_cases hrow <;>
          exact ⟨by intro x hx; fin_cases hx <;> norm_num,
            by norm_num [List.sum_cons, List.sum_nil]⟩)⟩

/-! ## C4: percent change -/

lemma getD_map_range {α : Type} (f : ℕ → α) (d : α) {n t : ℕ} (h : t < n) :
    ((List.range n).map f).getD t d = f t := by
  rw [List.getD_eq_getElem?_getD, List.getElem?_map, List.getElem?_range h]
  rfl

/-- C4 counterexample.  On the series `[0, 5]` with lag 1, row 1 has an
exactly-zero denominator, and `pct_change` produces `+inf` — not a
missing value as the claim requires. -/
theorem C4_pct_change_counterexample :
    pctChange [FVal.val 0, FVal.val 5] 1 = [FVal.nan, FVal.inf] := by
  decide

/-- The amended percent-change contract of `05_build_gli_master.py`:
rows before `k` are missing; a missing numerator or denominator yields
missing; a finite nonzero denominator yields exactly
`(v[t] - v[t-k]) / v[t-k]`; an exactly-zero denominator yields missing
only when the numerator is also zero and a signed infinity otherwise.
No case raises. -/
def PctChangeSpec (s : List FVal) (k t : ℕ) : Prop :=
  (t < k → (pctChange s k).getD t nan = nan) ∧
  (k ≤ t → ∀ a b, s.getD t nan = val a → s.getD (t - k) nan = val b →
    (pctChange s k).getD t nan =
      if b = 0 then (if a = 0 then nan else if 0 < a then inf else ninf)
      else val ((a - b) / b)) ∧
  (k ≤ t → s.getD (t - k) nan = nan → (pctChange s k).getD t nan = nan) ∧
  (k ≤ t → s.getD t nan = nan → (pctChange s k).getD t nan = nan)

/-- C4 (amended).  For every column, lag and in-range row, the
percent-change feature satisfies `PctChangeSpec`: it equals
`(v[t]-v[t-k])/v[t-k]` for a finite nonzero denominator, is missing on a
missing numerator or denominator or on `0/0`, and is a signed infinity
(never an exception) when the denominator is exactly zero and the
numerator is not. -/
theorem C4_pct_change_amended (s : List FVal) (k t : ℕ) (ht : t < s.length) :
    PctChangeSpec s k t := by
  have hmap : (pctChange s k).getD t nan =
      if k ≤ t then fsub (fdiv (s.getD t nan) (s.getD (t - k) nan)) (val 1)
      else nan := by
    simpa [pctChange] using
      getD_map_range
        (fun t =>
          if k ≤ t then fsub (fdiv (s.getD t nan) (s.getD (t - k) nan)) (val 1)
          else nan) nan ht
  refine ⟨?_, ?_, ?_, ?_⟩
  · intro hlt
    rw [hmap, if_neg (by omega)]
  · intro hk a b ha hb
    rw [hmap, if_pos hk, ha, hb]
    by_cases hb0 : b = 0
    · subst hb0
      by_cases ha0 : a = 0
      · simp [fdiv, fsub, ha0]
      · rcases lt_or_gt_of_ne ha0 with h | h
        · simp [fdiv, fsub, ha0, if_neg (not_lt.mpr (le_of_lt h)), h,
            not_lt.mpr (le_of_lt h)]
        · simp [fdiv, fsub, ha0, h]
    · simp only [fdiv, if_neg hb0, fsub]
      rw [div_sub_one hb0]
  · intro hk hden
    rw [hmap, if_pos hk, hden]
    cases hx : s.getD t nan <;> simp [fdiv, fsub]
  · intro hk hnum
    rw [hmap, if_pos hk, hnum]
    cases hd : s.getD (t - k) nan <;> simp [fdiv, fsub]

/-- C4 witness: the amended contract instantiated on a concrete series. -/
theorem C4_pct_change_amended_witness :
    1 < ([val 2, val 1, nan, val 4] : List FVal).length ∧
      PctChangeSpec [val 2, val 1, nan, val 4] 1 1 :=
  ⟨by decide, C4_pct_change_amended [val 2, val 1, nan, val 4] 1 1 (by decide)⟩

/-! ## C8: multi-restart fitting -/

lemma bestFold_acc {α : Type} (g : ℕ → α) (sc : α → ℚ) :
    ∀ (seeds : List ℕ) (b : α),
      ∃ m s, seeds.foldl (bestStep g sc) (some (b, sc b)) = some (m, s) ∧
        s = sc m ∧
        ((m = b ∧ ∀ k < seeds.length, sc (g (seeds.getD k 0)) ≤ sc b) ∨
          (∃ i < seeds.length, m = g (seeds.getD i 0) ∧ sc b < s ∧
            (∀ j < seeds.length, sc (g (seeds.getD j 0)) ≤ s) ∧
            (∀ j < i, sc (g (seeds.getD j 0)) < s))) := by
  intro seeds
  induction seeds with
  | nil =>
      intro b
      exact ⟨b, sc b, rfl, rfl, Or.inl ⟨rfl, by simp⟩⟩
  | cons x rest ih =>
      intro b
      by_cases h : sc (g x) > sc b
      · obtain ⟨m, s, heq, hs, hcase⟩ := ih (g x)
        refine ⟨m, s, ?_, hs, ?_⟩
        · simpa [bestStep, h] using heq
        · rcases hcase with ⟨rfl, hall⟩ | ⟨i, hi, hm, hlt, hall, hfirst⟩
          · refine Or.inr ⟨0, by simp, by simp, by rw [hs]; exact h, ?_, by omega⟩
            intro j hj
            cases j with
            | zero => simp [hs]
            | succ j => simpa [hs] using hall j (by simp only [List.length_cons] at hj; omega)
          · refine Or.inr ⟨i + 1, by simpa using hi, by simpa using hm,
              lt_trans h hlt, ?_, ?_⟩
            · intro j hj
              cases j with
              | zero => simpa using le_of_lt hlt
              | succ j => simpa using hall j (by simp only [List.length_cons] at hj; omega)
            · intro j hj
              cases j with
              | zero => simpa using hlt
              | succ j => simpa using hfirst j (by omega)
      · obtain ⟨m, s, heq, hs, hcase⟩ := ih b
        refine ⟨m, s, ?_, hs, ?_⟩
        · simpa [bestStep, h] using heq
        · rcases hcase with ⟨rfl, hall⟩ | ⟨i, hi, hm, hlt, hall, hfirst⟩
          · refine Or.inl ⟨rfl, ?_⟩
            intro j hj
            cases j with
            | zero => simpa using le_of_not_lt h
            | succ j => simpa using hall j (by simp only [List.length_cons] at hj; omega)
          · refine Or.inr ⟨i + 1, by simpa using hi, by simpa using hm, hlt, ?_, ?_⟩
            · intro j hj
              cases j with
              | zero => simpa using le_of_lt (lt_of_le_of_lt (le_of_not_lt h) hlt)
              | succ j => simpa using hall j (by simp only [List.length_cons] at hj; omega)
            · intro j hj
              cases j with
              | zero => simpa using lt_of_le_of_lt (le_of_not_lt h) hlt
              | succ j => simpa using hfirst j (by omega)

lemma bestFold_none {α : Type} (g : ℕ → α) (sc : α → ℚ) (seeds : List ℕ)
    (hne : seeds ≠ []) :
    ∃ m s, seeds.foldl (bestStep g sc) none = some (m, s) ∧ s = sc m ∧
      ∃ i < seeds.length, m = g (seeds.getD i 0) ∧
        (∀ j < seeds.length, sc (g (seeds.getD j 0)) ≤ s) ∧
        (∀ j < i, sc (g (seeds.getD j 0)) < s) := by
  cases seeds with
  | nil => exact absurd rfl hne
  | cons x rest =>
      obtain ⟨m, s, heq, hs, hcase⟩ := bestFold_acc g sc rest (g x)
      refine ⟨m, s, by simpa [bestStep] using heq, hs, ?_⟩
      rcases hcase with ⟨rfl, hall⟩ | ⟨i, hi, hm, hlt, hall, hfirst⟩
      · refine ⟨0, by simp, by simp, ?_, by omega⟩
        intro j hj
        cases j with
        | zero => simp [hs]
        | succ j => simpa [hs] using hall j (by simp only [List.length_cons] at hj; omega)
      · refine ⟨i + 1, by simpa using hi, by simpa using hm, ?_, ?_⟩
        · intro j hj
          cases j with
          | zero => simpa using le_of_lt hlt
          | succ j => simpa using hall j (by simp only [List.length_cons] at hj; omega)
        · intro j hj
          cases j with
          | zero => simpa using hlt
          | succ j => simpa using hfirst j (by omega)

lemma restartSeeds_getD {n j : ℕ} (hj : j < n) :
    (restartSeeds n).getD j 0 = 42 + j :=
  getD_map_range (fun i => 42 + i) 0 hj

/-- C8.  `_fit_best_hmm` performs exactly 10 restarts with the distinct
seeds 42..51 and identical hyperparameters (the same `fit` function),
scores each (smoothed) fit, and retains the single highest-scoring fit
under a strict greater-than comparison, so the kept fit is the
first-seen fit attaining the maximal score. -/
theorem C8_fit_best_hmm {α : Type} (fit : ℕ → α) (smooth : α → α)
    (score : α → ℚ) :
    restartSeeds 10 = [42, 43, 44, 45, 46, 47, 48, 49, 50, 51] ∧
    (restartSeeds 10).Nodup ∧
    ∃ m s, fitBestHMM fit smooth score 10 = some (m, s) ∧ s = score m ∧
      ∃ i < 10, m = smooth (fit (42 + i)) ∧
        (∀ j < 10, score (smooth (fit (42 + j))) ≤ s) ∧
        (∀ j < i, score (smooth (fit (42 + j))) < s) := by
  refine ⟨by decide, by decide, ?_⟩
  obtain ⟨m, s, heq, hs, i, hi, hm, hall, hfirst⟩ :=
    bestFold_none (fun seed => smooth (fit seed)) score (restartSeeds 10)
      (by decide)
  have hlen : (restartSeeds 10).length = 10 := by decide
  rw [hlen] at hi hall
  refine ⟨m, s, heq, hs, i, hi, ?_, ?_, ?_⟩
  · rwa [restartSeeds_getD hi] at hm
  · intro j hj
    have := hall j hj
    rwa [restartSeeds_getD hj] at this
  · intro j hj
    have := hfirst j hj
    rwa [restartSeeds_getD (lt_trans hj hi)] at this

/-! ## Sorting and lookup kit -/

lemma insertRow_perm {α : Type} (r : ℕ × α) (l : List (ℕ × α)) :
    (insertRow r l).Perm (r :: l) := by
  induction l with
  | nil => exact List.Perm.refl _
  | cons x xs ih =>
      by_cases h : r.1 < x.1
      · simp [insertRow, h]
      · simp only [insertRow, if_neg h]
        exact (ih.cons x).trans (List.Perm.swap r x xs)

lemma sortByDate_perm {α : Type} (l : List (ℕ × α)) :
    (sortByDate l).Perm l := by
  induction l with
  | nil => exact List.Perm.refl _
  | cons x xs ih => exact (insertRow_perm x (sortByDate xs)).trans (ih.cons x)

lemma mem_insertRow {α : Type} {y r : ℕ × α} {l : List (ℕ × α)} :
    y ∈ insertRow r l ↔ y = r ∨ y ∈ l := by
  rw [(insertRow_perm r l).mem_iff]
  simp

lemma insertRow_sorted {α : Type} (r : ℕ × α) (l : List (ℕ × α))
    (h : (l.map Prod.fst).Sorted (· ≤ ·)) :
    ((insertRow r l).map Prod.fst).Sorted (· ≤ ·) := by
  induction l with
  | nil => simp [insertRow]
  | cons x xs ih =>
      rw [List.map_cons, List.sorted_cons] at h
      by_cases h1 : r.1 < x.1
      · simp only [insertRow, if_pos h1, List.map_cons]
        refine List.sorted_cons.mpr ⟨?_, List.sorted_cons.mpr ⟨h.1, h.2⟩⟩
        intro b hb
        rcases List.mem_cons.mp hb with rfl | hb
        · exact le_of_lt h1
        · exact le_trans (le_of_lt h1) (h.1 b hb)
      · simp only [insertRow, if_neg h1, List.map_cons, List.sorted_cons]
        refine ⟨?_, ih h.2⟩
        intro b hb
        simp only [List.mem_map] at hb
        obtain ⟨y, hy, rfl⟩ := hb
        rcases mem_insertRow.mp hy with rfl | hy
        · exact le_of_not_lt h1
        · exact h.1 y.1 (List.mem_map_of_mem Prod.fst hy)

lemma sortByDate_sorted {α : Type} (l : List (ℕ × α)) :
    ((sortByDate l).map Prod.fst).Sorted (· ≤ ·) := by
  induction l with
  | nil => simp [sortByDate]
  | cons x xs ih => exact insertRow_sorted x (sortByDate xs) ih

lemma lookupKey_mem {α : Type} {d : ℕ} {v : α} :
    ∀ {l : List (ℕ × α)}, lookupKey d l = some v → (d, v) ∈ l := by
  intro l
  induction l with
  | nil => simp [lookupKey]
  | cons x xs ih =>
      obtain ⟨k, w⟩ := x
      simp only [lookupKey]
      by_cases h : k = d
      · subst h
        rw [if_pos rfl]
        rintro ⟨rfl⟩
        exact List.mem_cons_self _ _
      · rw [if_neg h]
        intro hl
        exact List.mem_cons_of_mem _ (ih hl)

lemma lookupKey_isSome_iff {α : Type} {d : ℕ} {l : List (ℕ × α)} :
    (∃ v, lookupKey d l = some v) ↔ ∃ v, (d, v) ∈ l := by
  constructor
  · rintro ⟨v, hv⟩
    exact ⟨v, lookupKey_mem hv⟩
  · rintro ⟨v, hv⟩
    induction l with
    | nil => simp at hv
    | cons x xs ih =>
        obtain ⟨k, w⟩ := x
        rcases List.mem_cons.mp hv with heq | hv'
        · injection heq with h1 h2
          subst h1
          exact ⟨w, by simp [lookupKey]⟩
        · by_cases h : k = d
          · exact ⟨w, by simp [lookupKey, h]⟩
          · obtain ⟨u, hu⟩ := ih hv'
            exact ⟨u, by simpa [lookupKey, h] using hu⟩

lemma lookupKey_eq_some_of_nodup {α : Type} {d : ℕ} {v : α}
    {l : List (ℕ × α)} (hnd : (l.map Prod.fst).Nodup) (hmem : (d, v) ∈ l) :
    lookupKey d l = some v := by
  induction l with
  | nil => simp at hmem
  | cons x xs ih =>
      obtain ⟨k, w⟩ := x
      rw [List.map_cons, List.nodup_cons] at hnd
      rcases List.mem_cons.mp hmem with heq | hmem'
      · injection heq with h1 h2
        subst h1; subst h2
        simp [lookupKey]
      · have hk : k ≠ d := by
          intro h
          subst h
          exact hnd.1 (by simpa using List.mem_map_of_mem Prod.fst hmem')
        simpa [lookupKey, hk] using ih hnd.2 hmem'

/-! ## C10: feature-master inner merge -/

/-- C10.  `net.merge(gcb, on="date", how="inner").sort_values("date")`:
a timestamp appears in the merged feature table iff it appears in both
inputs (timestamps present in only one input are dropped, not filled);
merged cells come from the matching input rows; and, the left input
having unique dates, the result is strictly chronologically sorted. -/
theorem C10_inner_merge {α β : Type} (xs : List (ℕ × α)) (ys : List (ℕ × β))
    (hnd : (xs.map Prod.fst).Nodup) :
    (∀ t, (∃ ab, (t, ab) ∈ innerMerge xs ys) ↔
        (∃ a, (t, a) ∈ xs) ∧ (∃ b, (t, b) ∈ ys)) ∧
    (∀ t a b, (t, a, b) ∈ innerMerge xs ys → (t, a) ∈ xs ∧ (t, b) ∈ ys) ∧
    ((innerMerge xs ys).map Prod.fst).Sorted (· < ·) := by
  have hperm :
      (innerMerge xs ys).Perm
        (xs.filterMap fun p =>
          match lookupKey p.1 ys with
          | some b => some (p.1, p.2, b)
          | none => none) :=
    sortByDate_perm _
  have hmem : ∀ t (ab : α × β),
      (t, ab) ∈ innerMerge xs ys ↔
        ((t, ab.1) ∈ xs ∧ lookupKey t ys = some ab.2) := by
    intro t ab
    rw [hperm.mem_iff, List.mem_filterMap]
    constructor
    · rintro ⟨p, hp, hmatch⟩
      obtain ⟨t', a'⟩ := p
      rcases hlk : lookupKey t' ys with _ | b
      · rw [hlk] at hmatch; simp at hmatch
      · rw [hlk] at hmatch
        simp only [Option.some.injEq, Prod.ext_iff] at hmatch
        obtain ⟨h1, h2, h3⟩ := hmatch
        subst h1
        rw [h2] at hp
        rw [h3] at hlk
        exact ⟨hp, hlk⟩
    · rintro ⟨hx, hlk⟩
      exact ⟨(t, ab.1), hx, by simp [hlk]⟩
  refine ⟨?_, ?_, ?_⟩
  · intro t
    constructor
    · rintro ⟨ab, hab⟩
      obtain ⟨hx, hlk⟩ := (hmem t ab).mp hab
      exact ⟨⟨ab.1, hx⟩, ab.2, lookupKey_mem hlk⟩
    · rintro ⟨⟨a, ha⟩, b, hb⟩
      obtain ⟨b', hb'⟩ := lookupKey_isSome_iff.mpr ⟨b, hb⟩
      exact ⟨(a, b'), (hmem t (a, b')).mpr ⟨ha, hb'⟩⟩
  · intro t a b htab
    obtain ⟨hx, hlk⟩ := (hmem t (a, b)).mp htab
    exact ⟨hx, lookupKey_mem hlk⟩
  · refine (sortByDate_sorted _).lt_of_le ?_
    have hsub :
        ((xs.filterMap fun p =>
            match lookupKey p.1 ys with
            | some b => some (p.1, p.2, b)
            | none => none).map Prod.fst).Sublist (xs.map Prod.fst) := by
      clear hperm hmem hnd
      induction xs with
      | nil => simp
      | cons p rest ih =>
          rcases hlk : lookupKey p.1 ys with _ | b
          · simpa [List.filterMap_cons, hlk] using ih.cons p.1
          · simpa [List.filterMap_cons, hlk] using ih.cons₂ p.1
    exact ((hperm.map Prod.fst).nodup_iff).mpr (hnd.sublist hsub)

/-- C10 witness: the inner-merge contract at two concrete tables whose
date sets overlap in `{1, 5}`. -/
theorem C10_inner_merge_witness :
    (([(3, (1 : ℚ)), (1, 2), (5, 3)].map Prod.fst).Nodup) ∧
    ((∀ t, (∃ ab, (t, ab) ∈
          innerMerge [(3, (1 : ℚ)), (1, 2), (5, 3)] [(5, (4 : ℚ)), (1, 6), (2, 9)]) ↔
        (∃ a, (t, a) ∈ [(3, (1 : ℚ)), (1, 2), (5, 3)]) ∧
          (∃ b, (t, b) ∈ [(5, (4 : ℚ)), (1, 6), (2, 9)])) ∧
      (∀ t a b, (t, a, b) ∈
          innerMerge [(3, (1 : ℚ)), (1, 2), (5, 3)] [(5, (4 : ℚ)), (1, 6), (2, 9)] →
        (t, a) ∈ [(3, (1 : ℚ)), (1, 2), (5, 3)] ∧ (t, b) ∈ [(5, (4 : ℚ)), (1, 6), (2, 9)]) ∧
      ((innerMerge [(3, (1 : ℚ)), (1, 2), (5, 3)] [(5, (4 : ℚ)), (1, 6), (2, 9)]).map
          Prod.fst).Sorted (· < ·)) :=
  ⟨by decide, C10_inner_merge [(3, (1 : ℚ)), (1, 2), (5, 3)]
    [(5, (4 : ℚ)), (1, 6), (2, 9)] (by decide)⟩

/-! ## C9: series normalization -/

/-- The last (most recently appended) record carrying timestamp key `k`:
the observation `drop_duplicates(..., keep="last")` retains. -/
def lastWithKey (k : Option ℕ) : List RawRec → Option RawRec
  | [] => none
  | r :: rest =>
      match lastWithKey k rest with
      | some y => some y
      | none => if r.1 = k then some r else none

lemma lastWithKey_eq_some {k : Option ℕ} {y : RawRec} :
    ∀ {l : List RawRec}, lastWithKey k l = some y → y ∈ l ∧ y.1 = k := by
  intro l
  induction l with
  | nil => simp [lastWithKey]
  | cons r rest ih =>
      simp only [lastWithKey]
      rcases h : lastWithKey k rest with _ | z
      · by_cases hr : r.1 = k
        · rw [if_pos hr]
          rintro ⟨rfl⟩
          exact ⟨List.mem_cons_self _ _, hr⟩
        · rw [if_neg hr]
          rintro ⟨⟩
      · rintro ⟨rfl⟩
        obtain ⟨hm, hk⟩ := ih h
        exact ⟨List.mem_cons_of_mem _ hm, hk⟩

lemma lastWithKey_eq_none_iff {k : Option ℕ} :
    ∀ {l : List RawRec}, lastWithKey k l = none ↔ ∀ y ∈ l, y.1 ≠ k := by
  intro l
  induction l with
  | nil => simp [lastWithKey]
  | cons r rest ih =>
      simp only [lastWithKey]
      rcases h : lastWithKey k rest with _ | y
      · have hrest : ∀ y ∈ rest, y.1 ≠ k := ih.mp h
        by_cases hr : r.1 = k
        · simp [hr, List.forall_mem_cons]
        · simp [hr, List.forall_mem_cons]
          exact fun a b hab => hrest (a, b) hab
      · obtain ⟨hm, hk⟩ := lastWithKey_eq_some h
        simp only [List.forall_mem_cons]
        constructor
        · rintro ⟨⟩
        · rintro ⟨_, hall⟩
          exact absurd hk (hall y hm)

lemma mem_dedupLastByDate {x : RawRec} :
    ∀ {l : List RawRec}, x ∈ dedupLastByDate l ↔ lastWithKey x.1 l = some x := by
  intro l
  induction l with
  | nil => simp [dedupLastByDate, lastWithKey]
  | cons r rest ih =>
      simp only [dedupLastByDate, lastWithKey]
      by_cases hany : (rest.any fun r2 => r2.1 = r.1) = true
      · rw [if_pos hany]
        rcases h : lastWithKey x.1 rest with _ | y
        · have hnr : r ≠ x := by
            rintro rfl
            obtain ⟨y2, hy2, hkey⟩ := List.any_eq_true.mp hany
            exact (lastWithKey_eq_none_iff.mp h) y2 hy2 (by simpa using hkey)
          rw [ih, h]
          by_cases hr : r.1 = x.1
          · simp [hr, hnr]
          · simp [hr]
        · rw [ih, h]
      · rw [if_neg hany]
        have hkeys : ∀ y ∈ rest, y.1 ≠ r.1 := by
          intro y hy hc
          exact hany (List.any_eq_true.mpr ⟨y, hy, by simpa using hc⟩)
        by_cases hx : x = r
        · subst hx
          have hnone : lastWithKey x.1 rest = none :=
            lastWithKey_eq_none_iff.mpr hkeys
          simp [hnone, ih, List.mem_cons]
        · simp only [List.mem_cons]
          rw [ih]
          rcases h : lastWithKey x.1 rest with _ | y
          · by_cases hr : r.1 = x.1
            · have hnr : r ≠ x := fun hc => hx hc.symm
              simp [hr, hx, hnr]
            · simp [hr, hx]
          · simp [hx]

lemma dedupLastByDate_subset : ∀ {l : List RawRec}, dedupLastByDate l ⊆ l := by
  intro l
  induction l with
  | nil => simp [dedupLastByDate]
  | cons r rest ih =>
      simp only [dedupLastByDate]
      by_cases hany : (rest.any fun r2 => r2.1 = r.1) = true
      · rw [if_pos hany]
        exact ih.trans (List.subset_cons_self r rest)
      · rw [if_neg hany]
        exact List.cons_subset_cons r ih

lemma dedupLastByDate_keys_nodup :
    ∀ {l : List RawRec}, ((dedupLastByDate l).map Prod.fst).Nodup := by
  intro l
  induction l with
  | nil => simp [dedupLastByDate]
  | cons r rest ih =>
      simp only [dedupLastByDate]
      by_cases hany : (rest.any fun r2 => r2.1 = r.1) = true
      · rw [if_pos hany]
        exact ih
      · rw [if_neg hany]
        rw [List.map_cons, List.nodup_cons]
        refine ⟨?_, ih⟩
        intro hc
        obtain ⟨y, hy, hkey⟩ := List.mem_map.mp hc
        exact hany (List.any_eq_true.mpr
          ⟨y, dedupLastByDate_subset hy, by simpa using hkey⟩)

lemma mem_mergeAppend {old new : List RawRec} {d : ℕ} {v : Option ℚ} :
    (d, v) ∈ mergeAppend old new ↔
      lastWithKey (some d) (old ++ new) = some (some d, v) := by
  rw [mergeAppend, (sortByDate_perm _).mem_iff, List.mem_filterMap]
  constructor
  · rintro ⟨r, hr, hmatch⟩
    obtain ⟨rd, rv⟩ := r
    rcases rd with _ | d'
    · simp at hmatch
    · simp only [Option.some.injEq, Prod.ext_iff] at hmatch
      obtain ⟨rfl, rfl⟩ := hmatch
      exact mem_dedupLastByDate.mp hr
  · intro hlast
    refine ⟨(some d, v), mem_dedupLastByDate.mpr hlast, rfl⟩

lemma mergeAppend_keys_nodup {old new : List RawRec} :
    ((mergeAppend old new).map Prod.fst).Nodup := by
  rw [mergeAppend]
  refine ((sortByDate_perm _).map Prod.fst).nodup_iff.mpr ?_
  rw [List.map_filterMap]
  have heq :
      (dedupLastByDate (old ++ new)).filterMap
          (fun a => (match a.1 with
            | some d => some (d, a.2)
            | none => none).map Prod.fst) =
        (dedupLastByDate (old ++ new)).filterMap fun a => a.1 := by
    apply List.filterMap_congr
    intro a _
    rcases a with ⟨_ | d, v⟩ <;> rfl
  rw [heq,
    show ((dedupLastByDate (old ++ new)).filterMap fun a => a.1) =
        ((dedupLastByDate (old ++ new)).map Prod.fst).filterMap id from by
      rw [List.filterMap_map]; rfl]
  exact List.Nodup.filterMap
    (by intro a a' b h1 h2; simp at h1 h2; rw [h1, h2])
    dedupLastByDate_keys_nodup

lemma mem_readSeries {l : List (ℕ × Option ℚ)} {d : ℕ} {v : ℚ} :
    (d, v) ∈ readSeries l ↔ (d, some v) ∈ l := by
  rw [readSeries, (sortByDate_perm _).mem_iff, List.mem_filterMap]
  constructor
  · rintro ⟨r, hr, hmatch⟩
    obtain ⟨rd, rv⟩ := r
    rcases rv with _ | w
    · simp at hmatch
    · simp only [Option.some.injEq, Prod.ext_iff] at hmatch
      obtain ⟨rfl, rfl⟩ := hmatch
      exact hr
  · intro hm
    exact ⟨(d, some v), hm, rfl⟩

lemma readSeries_keys_nodup {l : List (ℕ × Option ℚ)}
    (h : (l.map Prod.fst).Nodup) : ((readSeries l).map Prod.fst).Nodup := by
  rw [readSeries]
  refine ((sortByDate_perm _).map Prod.fst).nodup_iff.mpr ?_
  refine h.sublist ?_
  induction l with
  | nil => simp
  | cons r rest ih =>
      obtain ⟨rd, rv⟩ := r
      rcases rv with _ | w
      · simpa [List.filterMap_cons] using
          (ih (by simpa using h.of_cons)).cons rd
      · simpa [List.filterMap_cons] using
          (ih (by simpa using h.of_cons)).cons₂ rd

/-- C9.  The composite series normalizer — `_merge_append` (concatenate,
dedup by timestamp keeping the last occurrence, drop failed timestamp
coercions, sort) followed by the builder-side `_read_series` / `_read`
(drop failed value coercions, sort) — produces a strictly
chronologically sorted series with no two observations sharing a
timestamp, in which timestamp `d` carries value `v` exactly when the
last (most recently appended) raw record with timestamp `d` coerced to
`(d, v)`. -/
theorem C9_normalize_series (old new : List RawRec) :
    ((normalizeSeries old new).map Prod.fst).Sorted (· < ·) ∧
    ∀ d v, (d, v) ∈ normalizeSeries old new ↔
      lastWithKey (some d) (old ++ new) = some (some d, some v) := by
  constructor
  · rw [normalizeSeries, readSeries]
    exact (sortByDate_sorted _).lt_of_le
      (by
        rw [← readSeries]
        exact readSeries_keys_nodup mergeAppend_keys_nodup)
  · intro d v
    rw [normalizeSeries, mem_readSeries, mem_mergeAppend]

/-! ## Rolling-window kit (C5, C6) -/

lemma windowAt_length {s : List FVal} {w t : ℕ} (hw1 : w ≤ t + 1)
    (ht : t < s.length) : (windowAt s w t).length = w := by
  simp only [windowAt, List.length_drop, List.length_take]
  omega

lemma ratsOf_length {l : List FVal} (h : allNum l = true) :
    (ratsOf l).length = l.length := by
  induction l with
  | nil => simp [ratsOf]
  | cons x rest ih =>
      simp only [allNum, List.all_cons, Bool.and_eq_true] at h
      cases x with
      | val q => simpa [ratsOf] using ih (by simpa [allNum] using h.2)
      | nan => simp [isNum] at h
      | inf => simp [isNum] at h
      | ninf => simp [isNum] at h

lemma ratsOf_map_val (l : List ℚ) : ratsOf (l.map val) = l := by
  induction l with
  | nil => rfl
  | cons q rest ih => simpa [ratsOf] using ih

lemma allNum_map_val (l : List ℚ) : allNum (l.map val) = true := by
  induction l with
  | nil => rfl
  | cons q rest ih => simpa [allNum, isNum] using ih

lemma windowAt_map_val (u : List ℚ) (w t : ℕ) :
    windowAt (u.map val) w t = ((u.take (t + 1)).drop (t + 1 - w)).map val := by
  simp [windowAt, List.map_take, List.map_drop]

lemma window_sublist (u : List ℚ) (w t : ℕ) :
    ((u.take (t + 1)).drop (t + 1 - w)).Sublist u :=
  ((u.take (t + 1)).drop_sublist (t + 1 - w)).trans (u.take_sublist (t + 1))

/-! ## C6: rolling percentile rank -/

lemma filter_lt_add_filter_eq (win : List ℚ) (x : ℚ) :
    (win.filter fun y => y < x).length + (win.filter fun y => y = x).length =
      (win.filter fun y => y ≤ x).length := by
  induction win with
  | nil => simp
  | cons a rest ih =>
      rcases lt_trichotomy a x with h | h | h
      · simp only [List.filter_cons]
        simp [h, ne_of_lt h, le_of_lt h, ← ih]
        omega
      · subst h
        simp only [List.filter_cons]
        simp [lt_irrefl, le_refl, ← ih]
        omega
      · simp only [List.filter_cons]
        simp [not_lt.mpr (le_of_lt h), ne_of_gt h, not_le.mpr h, ← ih]

lemma getLast?_mem {l : List ℚ} {x : ℚ} (h : l.getLast? = some x) :
    x ∈ l := by
  obtain ⟨hne, rfl⟩ :=
    @List.mem_getLast?_eq_getLast _ l x (by rw [h]; rfl)
  exact List.getLast_mem hne

lemma lastRankPct_bounds (win : List ℚ) :
    0 ≤ lastRankPct win ∧ lastRankPct win ≤ 1 := by
  rcases hlast : win.getLast? with _ | x
  · simp [lastRankPct, hlast]
  · have hmem : x ∈ win := getLast?_mem hlast
    have hne : win ≠ [] := by rintro rfl; simp at hlast
    have hn : 0 < win.length := List.length_pos.mpr hne
    have he : 0 < (win.filter fun y => y = x).length :=
      List.length_pos.mpr (fun hc =>
        (List.filter_eq_nil.mp hc) x hmem (by simp))
    have hLe : (win.filter fun y => y < x).length +
        (win.filter fun y => y = x).length ≤ win.length := by
      rw [filter_lt_add_filter_eq]
      exact List.length_filter_le _ _
    simp only [lastRankPct, hlast]
    constructor
    · apply div_nonneg _ (by positivity)
      have : (0:ℚ) ≤ ((win.filter fun y => y < x).length : ℚ) := by positivity
      have : (0:ℚ) ≤ (((win.filter fun y => y = x).length : ℚ) + 1) / 2 := by
        positivity
      linarith
    · rw [div_le_one (by exact_mod_cast hn)]
      have h1 : ((win.filter fun y => y = x).length : ℚ) ≥ 1 := by
        exact_mod_cast he
      have h2 : ((win.filter fun y => y < x).length : ℚ) +
          ((win.filter fun y => y = x).length : ℚ) ≤ (win.length : ℚ) := by
        exact_mod_cast hLe
      linarith

lemma lastRankPct_sorted (win : List ℚ) (hne : win ≠ [])
    (hsort : win.Sorted (· < ·)) : lastRankPct win = 1 := by
  set x := win.getLast hne with hx
  have hlast : win.getLast? = some x := List.getLast?_eq_getLast_of_ne_nil hne
  have hsplit : win.dropLast ++ [x] = win := List.dropLast_append_getLast hne
  have hlt : ∀ y ∈ win.dropLast, y < x := by
    intro y hy
    have := hsort
    rw [← hsplit, List.Sorted, List.pairwise_append] at this
    exact this.2.2 y hy x (by simp)
  have hfiltlt : win.filter (fun y => y < x) = win.dropLast := by
    conv_lhs => rw [← hsplit]
    rw [List.filter_append]
    rw [List.filter_eq_self.mpr (fun y hy => by simpa using hlt y hy)]
    simp
  have hfilteq : (win.filter fun y => y = x).length = 1 := by
    conv_lhs => rw [← hsplit]
    rw [List.filter_append]
    rw [List.filter_eq_nil.mpr (fun y hy => by simpa using ne_of_lt (hlt y hy))]
    simp
  have hlen : win.length = win.dropLast.length + 1 := by
    conv_lhs => rw [← hsplit]
    simp
  simp only [lastRankPct, hlast, hfiltlt, hfilteq, hlen]
  push_cast
  have : (win.dropLast.length : ℚ) + 1 > 0 := by positivity
  field_simp

/-- The percentile-rank contract of `pct_rank` for window length `w`:
bounds, tie-averaged rank formula over the `w`-row window, and maximal
rank on strictly increasing input. -/
def PctRankSpec (w : ℕ) : Prop :=
    (∀ (s : List FVal) (t : ℕ), t < s.length → ∀ q,
        (pctRank s w).getD t nan = val q → 0 ≤ q ∧ q ≤ 1) ∧
    (∀ (s : List FVal) (t : ℕ), t < s.length → w ≤ t + 1 →
        allNum (windowAt s w t) = true →
        (windowAt s w t).length = w ∧
        ∃ x, (ratsOf (windowAt s w t)).getLast? = some x ∧
          (pctRank s w).getD t nan =
            val (((((ratsOf (windowAt s w t)).filter fun y => y < x).length : ℚ) +
              ((((ratsOf (windowAt s w t)).filter fun y => y = x).length : ℚ) + 1) / 2) /
                w)) ∧
    (∀ (u : List ℚ) (t : ℕ), u.Sorted (· < ·) → t < u.length → w ≤ t + 1 →
        (pctRank (u.map val) w).getD t nan = val 1)

/-- C6.  Every defined rolling percentile-rank value lies in [0,1]; where
defined, the value is the average-rank (tie-averaged) position of the
window's last element divided by the window size `w` (the window, once
filled, holds exactly `w` rows); and a strictly increasing column yields
the maximal rank 1.0 at every window-filled row. -/
theorem C6_pct_rank (w : ℕ) (hw : 1 ≤ w) : PctRankSpec w := by
  unfold PctRankSpec
  have hget : ∀ (s : List FVal) (t : ℕ), t < s.length →
      (pctRank s w).getD t nan =
        if w ≤ t + 1 ∧ allNum (windowAt s w t) = true then
          val (lastRankPct (ratsOf (windowAt s w t)))
        else nan := by
    intro s t ht
    simpa [pctRank] using
      getD_map_range
        (fun t =>
          if w ≤ t + 1 ∧ allNum (windowAt s w t) = true then
            val (lastRankPct (ratsOf (windowAt s w t)))
          else nan) nan ht
  refine ⟨?_, ?_, ?_⟩
  · intro s t ht q hq
    rw [hget s t ht] at hq
    by_cases hc : w ≤ t + 1 ∧ allNum (windowAt s w t) = true
    · rw [if_pos hc] at hq
      injection hq with hq
      rw [← hq]
      exact lastRankPct_bounds _
    · rw [if_neg hc] at hq
      exact absurd hq (by simp)
  · intro s t ht hw1 hnum
    refine ⟨windowAt_length hw1 ht, ?_⟩
    have hlen : (ratsOf (windowAt s w t)).length = w := by
      rw [ratsOf_length hnum, windowAt_length hw1 ht]
    have hne : ratsOf (windowAt s w t) ≠ [] := by
      intro hc
      rw [hc] at hlen
      simp at hlen
      omega
    rcases hx : (ratsOf (windowAt s w t)).getLast? with _ | x
    · exact absurd (List.getLast?_eq_none_iff.mp hx) hne
    refine ⟨x, rfl, ?_⟩
    rw [hget s t ht, if_pos ⟨hw1, hnum⟩]
    simp only [lastRankPct, hx, hlen]
  · intro u t hsort ht hw1
    have htlen : t < (u.map val).length := by simpa using ht
    rw [hget _ t htlen,
      if_pos ⟨hw1, by rw [windowAt_map_val]; exact allNum_map_val _⟩]
    rw [windowAt_map_val, ratsOf_map_val]
    have hsub := window_sublist u w t
    have hlen : ((u.take (t + 1)).drop (t + 1 - w)).length = w := by
      have := @windowAt_length (u.map val) w t hw1 htlen
      rw [windowAt_map_val] at this
      simpa using this
    have hne : (u.take (t + 1)).drop (t + 1 - w) ≠ [] := by
      intro hc
      rw [hc] at hlen
      simp at hlen
      omega
    rw [lastRankPct_sorted _ hne (hsort.sublist hsub)]

/-- C6 witness: the percentile-rank contract at window length 3. -/
theorem C6_pct_rank_witness : 1 ≤ 3 ∧ PctRankSpec 3 :=
  ⟨by decide, C6_pct_rank 3 (by decide)⟩

/-! ## C5: rolling z-score -/

lemma isNum_iff {x : FVal} : isNum x = true ↔ ∃ q, x = val q := by
  cases x <;> simp [isNum]

lemma getD_eq_getElem {s : List FVal} {t : ℕ} (ht : t < s.length) :
    s.getD t nan = s[t] := by
  rw [List.getD_eq_getElem?_getD, List.getElem?_eq_getElem ht]
  rfl

lemma getD_mem_windowAt {s : List FVal} {w t : ℕ} (hw : 1 ≤ w)
    (hw1 : w ≤ t + 1) (ht : t < s.length) :
    s.getD t nan ∈ windowAt s w t := by
  have hlen : (windowAt s w t).length = w := windowAt_length hw1 ht
  have hwlt : w - 1 < (windowAt s w t).length := by omega
  have htake : t < (s.take (t + 1)).length := by
    simp only [List.length_take]
    omega
  have hval : (windowAt s w t).get ⟨w - 1, hwlt⟩ = s[t] := by
    rw [List.get_eq_getElem]
    simp only [windowAt]
    rw [List.getElem_drop, List.getElem_take]
    congr 1
    omega
  rw [getD_eq_getElem ht, ← hval]
  exact List.get_mem _ _ _

lemma ratsOf_all_val {l : List FVal} {c : ℚ} (h : ∀ x ∈ l, x = val c) :
    ratsOf l = List.replicate l.length c := by
  induction l with
  | nil => rfl
  | cons x rest ih =>
      have hx : x = val c := h x (List.mem_cons_self _ _)
      subst hx
      simp only [ratsOf, List.filterMap_cons, List.length_cons,
        List.replicate_succ]
      rw [← ratsOf]
      exact congrArg _ (ih fun y hy => h y (List.mem_cons_of_mem _ hy))

lemma allNum_all_val {l : List FVal} {c : ℚ} (h : ∀ x ∈ l, x = val c) :
    allNum l = true := by
  rw [allNum, List.all_eq_true]
  intro x hx
  rw [h x hx]
  rfl

/-- The z-score contract of `zscore` for window length `w`, with the
float square root abstracted as `sqrt`: rows `0..w-2` are missing; the
standard deviation is the population one (variance normalized by `w`,
not `w-1`); a row with a defined nonzero windowed standard deviation has
a defined numeric z-score; and a constant-valued window yields a missing
z-score, never a fault. -/
def ZscoreSpec (sqrt : ℚ → ℚ) (w : ℕ) : Prop :=
  (∀ (s : List FVal) (t : ℕ), t < s.length → t + 1 < w →
      (zscore sqrt s w).getD t nan = nan) ∧
  (∀ (s : List FVal) (t : ℕ), t < s.length → w ≤ t + 1 →
      allNum (windowAt s w t) = true →
      rollingStd sqrt s w t =
        val (sqrt ((((ratsOf (windowAt s w t)).map fun x =>
          (x - (ratsOf (windowAt s w t)).sum / w) ^ 2).sum) / w))) ∧
  (∀ (s : List FVal) (t : ℕ) (q : ℚ), t < s.length →
      rollingStd sqrt s w t = val q → q ≠ 0 →
      ∃ r, (zscore sqrt s w).getD t nan = val r) ∧
  (∀ (s : List FVal) (t : ℕ) (c : ℚ), t < s.length → w ≤ t + 1 →
      (∀ x ∈ windowAt s w t, x = val c) →
      (zscore sqrt s w).getD t nan = nan)

/-- C5.  The rolling z-score uses the population standard deviation over
the trailing `w` rows, is missing at rows `0..w-2`, is a defined numeric
value wherever the windowed standard deviation is a defined nonzero
number, and is missing (not a fault) on a constant window. -/
theorem C5_zscore (sqrt : ℚ → ℚ) (w : ℕ) (hw : 1 ≤ w)
    (hsq0 : sqrt 0 = 0) : ZscoreSpec sqrt w := by
  have hgetz : ∀ (s : List FVal) (t : ℕ), t < s.length →
      (zscore sqrt s w).getD t nan =
        fdiv (fsub (s.getD t nan) (rollingMean s w t)) (rollingStd sqrt s w t) := by
    intro s t ht
    simpa [zscore] using
      getD_map_range
        (fun t =>
          fdiv (fsub (s.getD t nan) (rollingMean s w t)) (rollingStd sqrt s w t))
        nan ht
  refine ⟨?_, ?_, ?_, ?_⟩
  · intro s t ht hlt
    have hcond : ¬ w ≤ t + 1 := by omega
    have hmean : rollingMean s w t = nan := by
      simp [rollingMean, hcond]
    rw [hgetz s t ht, hmean]
    cases hx : s.getD t nan <;>
      cases hst : rollingStd sqrt s w t <;> simp [fsub, fdiv]
  · intro s t ht hw1 hnum
    simp [rollingStd, rollingVar, hw1, hnum]
  · intro s t q ht hstd hq
    by_cases hc : w ≤ t + 1 ∧ allNum (windowAt s w t) = true
    · have hmean : rollingMean s w t =
          val ((ratsOf (windowAt s w t)).sum / w) := by
        simp [rollingMean, hc.1, hc.2]
      have hx : ∃ a, s.getD t nan = val a := by
        rw [← isNum_iff]
        rw [allNum, List.all_eq_true] at hc
        exact hc.2 _ (getD_mem_windowAt hw hc.1 ht)
      obtain ⟨a, ha⟩ := hx
      rw [hgetz s t ht, ha, hmean, hstd]
      refine ⟨(a - (ratsOf (windowAt s w t)).sum / w) / q, ?_⟩
      simp [fsub, fdiv, hq]
    · have hvar : rollingVar s w t = nan := by
        simp only [rollingVar]
        rw [if_neg (by exact_mod_cast hc)]
      rw [rollingStd, hvar] at hstd
      exact absurd hstd (by simp)
  · intro s t c ht hw1 hconst
    have hnum := allNum_all_val hconst
    have hlen : (windowAt s w t).length = w := windowAt_length hw1 ht
    have hrats : ratsOf (windowAt s w t) = List.replicate w c := by
      rw [ratsOf_all_val hconst, hlen]
    have hwQ : (w : ℚ) ≠ 0 := by
      exact_mod_cast Nat.pos_iff_ne_zero.mp (by omega)
    have hsumc : (List.replicate w c).sum / (w : ℚ) = c := by
      rw [List.sum_replicate, nsmul_eq_mul, mul_div_cancel_left₀ c hwQ]
    have hmean : rollingMean s w t = val c := by
      simp only [rollingMean, hw1, hnum, and_self, if_true, hrats, hsumc]
    have hvar : rollingVar s w t = val 0 := by
      simp only [rollingVar, hw1, hnum, and_self, if_true, hrats, hsumc]
      rw [List.map_replicate]
      simp
    have hstd : rollingStd sqrt s w t = val 0 := by
      simp [rollingStd, hvar, hsq0]
    have hxc : s.getD t nan = val c := hconst _ (getD_mem_windowAt hw hw1 ht)
    rw [hgetz s t ht, hxc, hmean, hstd]
    simp [fsub, fdiv]

/-- C5 witness: the z-score contract with `sqrt := id` and window 2. -/
theorem C5_zscore_witness :
    (1 ≤ 2 ∧ id (0 : ℚ) = 0) ∧ ZscoreSpec id 2 :=
  ⟨⟨by decide, rfl⟩, C5_zscore id 2 (by decide) rfl⟩

/-! ## Canonical-relabeling kit (C1, C3) -/

lemma lookupKey_eq_none_iff {α : Type} {d : ℕ} :
    ∀ {l : List (ℕ × α)}, lookupKey d l = none ↔ d ∉ l.map Prod.fst := by
  intro l
  induction l with
  | nil => simp [lookupKey]
  | cons x xs ih =>
      obtain ⟨k, v⟩ := x
      by_cases h : k = d
      · subst h
        simp [lookupKey]
      · simp [lookupKey, h, ih, Ne.symm h]

lemma mem_insertDesc {score : ℕ → ℚ} {y s : ℕ} :
    ∀ {l : List ℕ}, y ∈ insertDesc score s l ↔ y = s ∨ y ∈ l := by
  intro l
  induction l with
  | nil => simp [insertDesc]
  | cons x xs ih =>
      by_cases h : score x < score s
      · simp [insertDesc, h]
      · simp only [insertDesc, if_neg h, List.mem_cons, ih]
        tauto

lemma insertDesc_perm (score : ℕ → ℚ) (s : ℕ) :
    ∀ (l : List ℕ), (insertDesc score s l).Perm (s :: l) := by
  intro l
  induction l with
  | nil => exact List.Perm.refl _
  | cons x xs ih =>
      by_cases h : score x < score s
      · simp [insertDesc, h]
      · simp only [insertDesc, if_neg h]
        exact (ih.cons x).trans (List.Perm.swap s x xs)

lemma insertDesc_sorted (score : ℕ → ℚ) (s : ℕ) :
    ∀ (l : List ℕ), l.Pairwise (fun a b => score b ≤ score a) →
      (insertDesc score s l).Pairwise (fun a b => score b ≤ score a) := by
  intro l
  induction l with
  | nil => simp [insertDesc]
  | cons x xs ih =>
      intro h
      rw [List.pairwise_cons] at h
      by_cases hx : score x < score s
      · rw [insertDesc, if_pos hx, List.pairwise_cons]
        refine ⟨?_, List.pairwise_cons.mpr h⟩
        intro b hb
        rcases List.mem_cons.mp hb with rfl | hb
        · exact le_of_lt hx
        · exact le_trans (h.1 b hb) (le_of_lt hx)
      · rw [insertDesc, if_neg hx, List.pairwise_cons]
        refine ⟨?_, ih h.2⟩
        intro b hb
        rcases mem_insertDesc.mp hb with rfl | hb
        · exact le_of_not_lt hx
        · exact h.1 b hb

lemma orderStates_perm (rows : List FeatRow) (states : List ℕ) :
    (orderStates rows states).Perm (observedStates states) := by
  rw [orderStates]
  generalize observedStates states = l
  induction l with
  | nil => exact List.Perm.refl _
  | cons x xs ih =>
      exact (insertDesc_perm _ x _).trans (ih.cons x)

lemma orderStates_nodup (rows : List FeatRow) (states : List ℕ) :
    (orderStates rows states).Nodup :=
  ((orderStates_perm rows states).nodup_iff).mpr (List.nodup_dedup states)

lemma mem_orderStates {rows : List FeatRow} {states : List ℕ} {a : ℕ} :
    a ∈ orderStates rows states ↔ a ∈ states := by
  rw [(orderStates_perm rows states).mem_iff, observedStates,
    List.mem_dedup]

lemma orderStates_sorted (rows : List FeatRow) (states : List ℕ) :
    (orderStates rows states).Pairwise
      (fun a b => stateScore rows states b ≤ stateScore rows states a) := by
  rw [orderStates]
  generalize observedStates states = l
  induction l with
  | nil => simp
  | cons x xs ih => exact insertDesc_sorted _ x _ ih

lemma mappingPairs_keys (order : List ℕ) :
    (mappingPairs order).map Prod.fst = order := by
  rw [mappingPairs, List.map_map]
  have : (Prod.fst ∘ fun p : ℕ × ℕ => (p.2, p.1)) = Prod.snd := rfl
  rw [this, List.enum_map_snd]

lemma stateMap_eq_some_iff {rows : List FeatRow} {states : List ℕ}
    {a i : ℕ} (hnd : (orderStates rows states).Nodup) :
    stateMap rows states a = some i ↔
      i < (orderStates rows states).length ∧
        (orderStates rows states).getD i 0 = a := by
  set order := orderStates rows states with horder
  constructor
  · intro h
    have hmem := lookupKey_mem h
    rw [mappingPairs, List.mem_map] at hmem
    obtain ⟨⟨j, b⟩, hjb, heq⟩ := hmem
    simp only [Prod.ext_iff] at heq
    obtain ⟨h1, h2⟩ := heq
    rw [← h1, ← h2]
    have hj := List.mk_mem_enum_iff_get?.mp hjb
    have hilt : j < order.length := by
      by_contra hc
      rw [List.get?_eq_none.mpr (le_of_not_lt hc)] at hj
      exact Option.noConfusion hj
    refine ⟨hilt, ?_⟩
    rw [List.getD_eq_getElem?_getD, ← List.get?_eq_getElem?, hj]
    rfl
  · rintro ⟨hi, ha⟩
    have hget : order.get? i = some a := by
      rw [List.get?_eq_getElem?, List.getElem?_eq_getElem hi]
      rw [List.getD_eq_getElem?_getD, List.getElem?_eq_getElem hi] at ha
      exact congrArg some ha
    have henum : (i, a) ∈ order.enum := List.mk_mem_enum_iff_get?.mpr hget
    have hpair : (a, i) ∈ mappingPairs order := by
      rw [mappingPairs, List.mem_map]
      exact ⟨(i, a), henum, rfl⟩
    exact lookupKey_eq_some_of_nodup (by rwa [mappingPairs_keys]) hpair

lemma mapM_option_nil {α β : Type} (f : α → Option β) :
    ([] : List α).mapM f = some [] := rfl

lemma mapM_option_cons {α β : Type} (f : α → Option β) (a : α) (l : List α) :
    (a :: l).mapM f = (f a).bind fun b => (l.mapM f).map fun r => b :: r := by
  rw [List.mapM_cons]
  rcases f a with _ | b
  · rfl
  · rcases h : l.mapM f with _ | r <;> simp [h]

lemma mapM_option_spec {α β : Type} (f : α → Option β) (d : α) (d' : β) :
    ∀ (l : List α), (∀ a ∈ l, ∃ b, f a = some b) →
      ∃ r, l.mapM f = some r ∧ r.length = l.length ∧
        ∀ i < l.length, f (l.getD i d) = some (r.getD i d') := by
  intro l
  induction l with
  | nil => exact fun _ => ⟨[], rfl, rfl, by simp⟩
  | cons a rest ih =>
      intro hall
      obtain ⟨b, hb⟩ := hall a (List.mem_cons_self _ _)
      obtain ⟨r, hr, hlen, hpt⟩ :=
        ih fun x hx => hall x (List.mem_cons_of_mem _ hx)
      refine ⟨b :: r, ?_, by simp [hlen], ?_⟩
      · rw [mapM_option_cons, hb, hr]
        rfl
      · intro i hi
        cases i with
        | zero => simpa using hb
        | succ i =>
            simpa using hpt i (by simpa using hi)

lemma mapM_option_eq_none {α β : Type} (f : α → Option β) {a : α}
    {l : List α} (hmem : a ∈ l) (ha : f a = none) : l.mapM f = none := by
  induction l with
  | nil => simp at hmem
  | cons x rest ih =>
      rw [mapM_option_cons]
      rcases List.mem_cons.mp hmem with rfl | hmem'
      · rw [ha]
        rfl
      · rcases hx : f x with _ | b
        · rfl
        · rw [Option.some_bind, ih hmem']
          rfl

lemma reorderPost_none {m : ℕ → Option ℕ} {k : ℕ} (hk : k < 3)
    (hnone : m k = none) (p : ℚ × ℚ × ℚ) : reorderPost m p = none := by
  interval_cases k
  · simp [reorderPost, hnone]
  · rcases h0 : m 0 with _ | n0 <;> simp [reorderPost, h0, hnone]
  · rcases h0 : m 0 with _ | n0 <;> rcases h1 : m 1 with _ | n1 <;>
      simp [reorderPost, h0, h1, hnone]

lemma tripGet_tripMk {g : ℕ → ℚ} {n : ℕ} (hn : n < 3) :
    tripGet (tripMk g) n = g n := by
  interval_cases n <;> simp [tripGet, tripMk]

lemma reorderPost_spec {m : ℕ → Option ℕ} {n0 n1 n2 : ℕ}
    (h0 : m 0 = some n0) (h1 : m 1 = some n1) (h2 : m 2 = some n2)
    (p : ℚ × ℚ × ℚ) :
    reorderPost m p =
      some (tripMk fun j =>
        if j = n2 then tripGet p 2
        else if j = n1 then tripGet p 1
        else if j = n0 then tripGet p 0 else 0) := by
  simp [reorderPost, h0, h1, h2]

/-! ## C3: degenerate-fit handling -/

/-- C3 counterexample.  With only two raw states observed (`[0, 1, 0]`)
out of K = 3, the static (GMM) backend does not fail at all: it silently
emits a normal output table whose canonical labels take only the two
values 0 and 1 — refuting the claim that both backends fail loudly. -/
theorem C3_degenerate_counterexample :
    (observedStates [0, 1, 0]).length = 2 ∧
    gmmRelabel [(1, 2), (5, 6), (1, 2)] [0, 1, 0]
        [(7/10, 2/10, 1/10), (1/10, 8/10, 1/10), (6/10, 3/10, 1/10)] =
      [⟨some 1, 7/10, 2/10, 1/10⟩, ⟨some 0, 1/10, 8/10, 1/10⟩,
        ⟨some 1, 6/10, 3/10, 1/10⟩] := by
  have horder : orderStates [(1, 2), (5, 6), (1, 2)] [0, 1, 0] = [1, 0] := by
    norm_num [orderStates, observedStates, insertDesc, stateScore, stateRows,
      List.dedup]
  have hm0 : stateMap [(1, 2), (5, 6), (1, 2)] [0, 1, 0] 0 = some 1 := by
    simp [stateMap, horder, mappingPairs, lookupKey, List.enum, List.enumFrom]
  have hm1 : stateMap [(1, 2), (5, 6), (1, 2)] [0, 1, 0] 1 = some 0 := by
    simp [stateMap, horder, mappingPairs, lookupKey, List.enum, List.enumFrom]
  exact ⟨by decide, by simp [gmmRelabel, hm0, hm1]⟩

/-- C3 (amended).  Only the sequential (HMM) backend fails loudly on a
degenerate fit: if some raw state `k < 3` is never observed and there is
at least one posterior row, the relabeling step of
`07_train_liquidity_regime_hmm.py` aborts with a KeyError while
reindexing the posterior columns.  (The static backend, a total
function, silently emits labels with fewer than K distinct values — see
the counterexample.) -/
theorem C3_degenerate_amended (rows : List FeatRow) (states : List ℕ)
    (posts : List (ℚ × ℚ × ℚ)) (T : List (List ℚ)) (hne : posts ≠ [])
    (hdeg : ∃ k, k < 3 ∧ k ∉ states) :
    hmmRelabel rows states posts T = Except.error "KeyError" := by
  obtain ⟨k, hk3, hkabs⟩ := hdeg
  have hmapk : stateMap rows states k = none := by
    rw [stateMap, lookupKey_eq_none_iff, mappingPairs_keys]
    rw [mem_orderStates]
    exact hkabs
  have hall : ∀ a ∈ states, ∃ v, stateMap rows states a = some v := by
    intro a ha
    rcases h : stateMap rows states a with _ | v
    · exfalso
      rw [stateMap, lookupKey_eq_none_iff, mappingPairs_keys,
        mem_orderStates] at h
      exact h ha
    · exact ⟨v, rfl⟩
  obtain ⟨regimes, hreg, _, _⟩ :=
    mapM_option_spec (stateMap rows states) 0 0 states hall
  obtain ⟨p, hp⟩ := List.exists_mem_of_ne_nil posts hne
  have hposts : posts.mapM (reorderPost (stateMap rows states)) = none :=
    mapM_option_eq_none _ hp (reorderPost_none hk3 hmapk p)
  simp only [hmmRelabel]
  rw [hreg, hposts]

/-- C3 witness: the amended degenerate-fit behaviour at a concrete
two-state assignment. -/
theorem C3_degenerate_amended_witness :
    (([((7:ℚ)/10, 2/10, 1/10)] : List (ℚ × ℚ × ℚ)) ≠ [] ∧
      ∃ k, k < 3 ∧ k ∉ [0, 1, 0]) ∧
    hmmRelabel [(1, 2), (5, 6), (1, 2)] [0, 1, 0] [(7/10, 2/10, 1/10)]
        [[1, 0, 0], [0, 1, 0], [0, 0, 1]] =
      Except.error "KeyError" :=
  ⟨⟨List.cons_ne_nil _ _, ⟨2, by decide, by decide⟩⟩,
    C3_degenerate_amended [(1, 2), (5, 6), (1, 2)] [0, 1, 0]
      [(7/10, 2/10, 1/10)] [[1, 0, 0], [0, 1, 0], [0, 0, 1]]
      (List.cons_ne_nil _ _) ⟨2, by decide, by decide⟩⟩

/-! ## C1: consistency of the canonical relabeling -/

lemma stateMap_inj {rows : List FeatRow} {states : List ℕ} {a b i : ℕ}
    (ha : stateMap rows states a = some i)
    (hb : stateMap rows states b = some i) : a = b := by
  have hnd := orderStates_nodup rows states
  obtain ⟨_, h1⟩ := (stateMap_eq_some_iff hnd).mp ha
  obtain ⟨_, h2⟩ := (stateMap_eq_some_iff hnd).mp hb
  rw [← h1, ← h2]

lemma stateMap_of_mem {rows : List FeatRow} {states : List ℕ} {a : ℕ}
    (hs : a ∈ states) :
    ∃ i, i < (orderStates rows states).length ∧
      stateMap rows states a = some i ∧
      (orderStates rows states).getD i 0 = a := by
  have hnd := orderStates_nodup rows states
  have hmem : a ∈ orderStates rows states := mem_orderStates.mpr hs
  obtain ⟨i, hi, hget⟩ := List.mem_iff_getElem.mp hmem
  have hgetD : (orderStates rows states).getD i 0 = a := by
    rw [List.getD_eq_getElem?_getD, List.getElem?_eq_getElem hi]
    exact hget
  exact ⟨i, hi, (stateMap_eq_some_iff hnd).mpr ⟨hi, hgetD⟩, hgetD⟩

/-- C1 counterexample.  On a three-state static (GMM) fit whose
expansiveness order swaps raw states 0 and 1 (the mapping sends raw
state 1 to canonical label 0), the emitted posterior column `regime_p0`
still holds the raw `probs[:, 0]` values: row 0 reports 7/10 in
component 0, while the probability of the canonical state 0 (raw state
1) in that row is 2/10.  The posterior vector is therefore not reordered
by the mapping, refuting the claim for the static backend. -/
theorem C1_relabel_counterexample :
    stateMap [(1, 2), (5, 6), (-3, -2)] [0, 1, 2] 1 = some 0 ∧
    (gmmRelabel [(1, 2), (5, 6), (-3, -2)] [0, 1, 2]
        [(7/10, 2/10, 1/10), (1/10, 8/10, 1/10), (2/10, 3/10, 5/10)]).map
      (fun r => r.p0) = [7/10, 1/10, 2/10] ∧
    ((7 : ℚ)/10 ≠ 2/10) := by
  have horder : orderStates [(1, 2), (5, 6), (-3, -2)] [0, 1, 2] = [1, 0, 2] := by
    norm_num [orderStates, observedStates, insertDesc, stateScore, stateRows,
      List.dedup]
  have hm1 : stateMap [(1, 2), (5, 6), (-3, -2)] [0, 1, 2] 1 = some 0 := by
    simp [stateMap, horder, mappingPairs, lookupKey, List.enum, List.enumFrom]
  refine ⟨hm1, ?_, by norm_num⟩
  simp [gmmRelabel]

lemma getD_map {α β : Type} (f : α → β) {l : List α} {i : ℕ} (d : β)
    (d' : α) (h : i < l.length) : (l.map f).getD i d = f (l.getD i d') := by
  rw [List.getD_eq_getElem?_getD, List.getElem?_map,
    List.getElem?_eq_getElem h, List.getD_eq_getElem?_getD,
    List.getElem?_eq_getElem h]
  rfl

/-- The amended relabeling-consistency contract: the mapping orders raw
states by weakly descending expansiveness score and is defined (with a
canonical label `< 3`) on every observed state; the sequential backend
relabels the hard labels, reorders every posterior row, and permutes the
transition matrix by that one mapping; the static backend applies the
same mapping to its hard labels only (its posterior columns stay in raw
order — see the counterexample). -/
def RelabelConsistent (rows : List FeatRow) (states : List ℕ)
    (posts : List (ℚ × ℚ × ℚ)) (T : List (List ℚ)) : Prop :=
  (∀ a b i j, stateMap rows states a = some i →
      stateMap rows states b = some j → i < j →
      stateScore rows states b ≤ stateScore rows states a) ∧
  (∀ s ∈ states, ∃ i, i < 3 ∧ stateMap rows states s = some i) ∧
  (∃ out, hmmRelabel rows states posts T = Except.ok out ∧
    out.regimes.length = states.length ∧
    (∀ i, i < states.length →
        stateMap rows states (states.getD i 0) = some (out.regimes.getD i 0)) ∧
    out.posts.length = posts.length ∧
    (∀ i, i < posts.length → ∀ old new, stateMap rows states old = some new →
        tripGet (out.posts.getD i (0, 0, 0)) new =
          tripGet (posts.getD i (0, 0, 0)) old) ∧
    (∀ a b i j, stateMap rows states a = some i →
        stateMap rows states b = some j →
        (out.trans.getD i []).getD j 0 = (T.getD a []).getD b 0)) ∧
  (∀ (probs : List (ℚ × ℚ × ℚ)) i, i < (states.zip probs).length →
      ((gmmRelabel rows states probs).getD i ⟨none, 0, 0, 0⟩).regime =
        stateMap rows states (states.getD i 0))

/-- C1 (amended).  When all three raw states are observed (and states
lie in `{0,1,2}`), the one descending-expansiveness mapping is applied
to the sequential backend's hard labels, posterior vectors (components
reordered) and transition matrix (rows and columns permuted together),
and to the static backend's hard labels; the static backend's posterior
columns are not reordered. -/
theorem C1_relabel_amended (rows : List FeatRow) (states : List ℕ)
    (posts : List (ℚ × ℚ × ℚ)) (T : List (List ℚ))
    (h3 : ∀ s ∈ states, s < 3) (hobs : ∀ k < 3, k ∈ states) :
    RelabelConsistent rows states posts T := by
  set order := orderStates rows states with horder
  have hnd : order.Nodup := orderStates_nodup rows states
  have hlen : order.length = 3 := by
    have hsub1 : order ⊆ [0, 1, 2] := by
      intro a ha
      have h3a := h3 a (mem_orderStates.mp ha)
      interval_cases a <;> decide
    have hsub2 : ([0, 1, 2] : List ℕ) ⊆ order := by
      intro k hk
      have hk3 : k < 3 := by
        simp only [List.mem_cons, List.not_mem_nil, or_false] at hk
        rcases hk with rfl | rfl | rfl <;> omega
      exact mem_orderStates.mpr (hobs k hk3)
    have h1 := (hnd.subperm hsub1).length_le
    have h2 := ((by decide : ([0, 1, 2] : List ℕ).Nodup).subperm hsub2).length_le
    simp at h1 h2
    omega
  obtain ⟨n0, hn0lt, hm0, hg0⟩ :=
    @stateMap_of_mem rows states 0 (hobs 0 (by omega))
  obtain ⟨n1, hn1lt, hm1, hg1⟩ :=
    @stateMap_of_mem rows states 1 (hobs 1 (by omega))
  obtain ⟨n2, hn2lt, hm2, hg2⟩ :=
    @stateMap_of_mem rows states 2 (hobs 2 (by omega))
  rw [hlen] at hn0lt hn1lt hn2lt
  have hne01 : n0 ≠ n1 := by
    intro h
    rw [h] at hm0
    exact absurd (stateMap_inj hm0 hm1) (by omega)
  have hne02 : n0 ≠ n2 := by
    intro h
    rw [h] at hm0
    exact absurd (stateMap_inj hm0 hm2) (by omega)
  have hne12 : n1 ≠ n2 := by
    intro h
    rw [h] at hm1
    exact absurd (stateMap_inj hm1 hm2) (by omega)
  have htot : ∀ s ∈ states, ∃ i, i < 3 ∧ stateMap rows states s = some i := by
    intro s hs
    obtain ⟨i, hilt, hmap, _⟩ := @stateMap_of_mem rows states s hs
    rw [← horder] at hilt
    exact ⟨i, by omega, hmap⟩
  have hdesc : ∀ a b i j, stateMap rows states a = some i →
      stateMap rows states b = some j → i < j →
      stateScore rows states b ≤ stateScore rows states a := by
    intro a b i j ha hb hij
    obtain ⟨hi, hga⟩ := (stateMap_eq_some_iff hnd).mp ha
    obtain ⟨hj, hgb⟩ := (stateMap_eq_some_iff hnd).mp hb
    have hpw := List.pairwise_iff_getElem.mp (orderStates_sorted rows states)
      i j hi hj hij
    rw [List.getD_eq_getElem?_getD, List.getElem?_eq_getElem hi] at hga
    rw [List.getD_eq_getElem?_getD, List.getElem?_eq_getElem hj] at hgb
    rw [← hga, ← hgb]
    exact hpw
  refine ⟨hdesc, htot, ?_, ?_⟩
  · -- sequential backend
    obtain ⟨regimes, hregs, hreglen, hregpt⟩ :=
      mapM_option_spec (stateMap rows states) 0 0 states
        (fun s hs => (htot s hs).imp fun i h => h.2)
    obtain ⟨ps, hps, hpslen, hpspt⟩ :=
      mapM_option_spec (reorderPost (stateMap rows states)) (0, 0, 0) (0, 0, 0)
        posts (fun p _ => ⟨_, reorderPost_spec hm0 hm1 hm2 p⟩)
    have hswap : (mappingPairs order).map (fun p => (p.2, p.1)) = order.enum := by
      rw [mappingPairs, List.map_map]
      have hcomp : ((fun p : ℕ × ℕ => (p.2, p.1)) ∘ fun p : ℕ × ℕ => (p.2, p.1)) =
          id := funext fun p => rfl
      rw [hcomp, List.map_id]
    have hlk : ∀ i, i < order.length → lookupKey i order.enum =
        some (order.getD i 0) := by
      intro i hi
      apply lookupKey_eq_some_of_nodup
      · rw [List.enum_map_fst]
        exact List.nodup_range _
      · refine List.mk_mem_enum_iff_get?.mpr ?_
        rw [List.get?_eq_getElem?, List.getElem?_eq_getElem hi]
        rw [List.getD_eq_getElem?_getD, List.getElem?_eq_getElem hi]
        rfl
    have hinv : invOrder order =
        some [order.getD 0 0, order.getD 1 0, order.getD 2 0] := by
      simp only [invOrder, hswap]
      rw [show ([0, 1, 2] : List ℕ) = 0 :: 1 :: 2 :: [] from rfl,
        mapM_option_cons, hlk 0 (by omega), mapM_option_cons, hlk 1 (by omega),
        mapM_option_cons, hlk 2 (by omega), mapM_option_nil]
      rfl
    refine ⟨⟨regimes, ps, permuteTrans
      [order.getD 0 0, order.getD 1 0, order.getD 2 0] T⟩, ?_, hreglen, ?_,
      hpslen, ?_, ?_⟩
    · simp only [hmmRelabel]
      rw [← horder, hregs, hps, hinv]
    · intro i hi
      exact hregpt i hi
    · intro i hi old new hmap
      have hmem : old ∈ states := by
        obtain ⟨hn, hg⟩ := (stateMap_eq_some_iff hnd).mp hmap
        rw [← @mem_orderStates rows states old, ← hg, ← horder]
        rw [List.getD_eq_getElem?_getD, List.getElem?_eq_getElem hn]
        exact List.getElem_mem _
      have hold3 : old < 3 := h3 old hmem
      have hpseq : ps.getD i (0, 0, 0) =
          tripMk fun j =>
            if j = n2 then tripGet (posts.getD i (0, 0, 0)) 2
            else if j = n1 then tripGet (posts.getD i (0, 0, 0)) 1
            else if j = n0 then tripGet (posts.getD i (0, 0, 0)) 0 else 0 :=
        Option.some.inj
          ((hpspt i hi).symm.trans
            (reorderPost_spec hm0 hm1 hm2 (posts.getD i (0, 0, 0))))
      rw [hpseq]
      interval_cases old
      · have heq : n0 = new := Option.some.inj (hm0.symm.trans hmap)
        rw [← heq, tripGet_tripMk hn0lt]
        simp [hne01, hne02]
      · have heq : n1 = new := Option.some.inj (hm1.symm.trans hmap)
        rw [← heq, tripGet_tripMk hn1lt]
        simp [hne12]
      · have heq : n2 = new := Option.some.inj (hm2.symm.trans hmap)
        rw [← heq, tripGet_tripMk hn2lt]
        simp
    · intro a b i j ha hb
      obtain ⟨hi, hga⟩ := (stateMap_eq_some_iff hnd).mp ha
      obtain ⟨hj, hgb⟩ := (stateMap_eq_some_iff hnd).mp hb
      rw [← horder] at hga hgb
      rw [hlen] at hi hj
      interval_cases i <;> interval_cases j <;> rw [← hga, ← hgb] <;>
        simp [permuteTrans]
  · intro probs i hi
    have hz : (states.zip probs).length = min states.length probs.length :=
      List.length_zip _ _
    have hist : i < states.length := by omega
    rw [gmmRelabel, getD_map _ _ (0, (0, 0, 0)) hi]
    have hfst : ((states.zip probs).getD i (0, (0, 0, 0))).1 =
        states.getD i 0 := by
      rw [List.getD_eq_getElem?_getD, List.getElem?_eq_getElem hi,
        List.getD_eq_getElem?_getD, List.getElem?_eq_getElem hist]
      rw [List.getElem_zip]
      rfl
    rw [← hfst]

/-- C1 witness: the amended relabeling-consistency contract at a
concrete three-state fit. -/
theorem C1_relabel_amended_witness :
    ((∀ s ∈ ([0, 1, 2] : List ℕ), s < 3) ∧
      (∀ k < 3, k ∈ ([0, 1, 2] : List ℕ))) ∧
    RelabelConsistent [(1, 2), (5, 6), (-3, -2)] [0, 1, 2]
      [(7/10, 2/10, 1/10)] [[1, 0, 0], [0, 1, 0], [0, 0, 1]] :=
  ⟨⟨by decide, by decide⟩,
    C1_relabel_amended [(1, 2), (5, 6), (-3, -2)] [0, 1, 2]
      [(7/10, 2/10, 1/10)] [[1, 0, 0], [0, 1, 0], [0, 0, 1]]
      (by decide) (by decide)⟩

/-! ## C7: multi-series alignment -/

lemma mem_insertKey {y x : ℕ} :
    ∀ {l : List ℕ}, y ∈ insertKey x l ↔ y = x ∨ y ∈ l := by
  intro l
  induction l with
  | nil => simp [insertKey]
  | cons z zs ih =>
      by_cases h1 : x < z
      · simp [insertKey, h1]
      · by_cases h2 : x = z
        · subst h2
          rw [insertKey, if_neg h1, if_pos rfl]
          simp only [List.mem_cons]
          tauto
        · rw [insertKey, if_neg h1, if_neg h2]
          simp only [List.mem_cons, ih]
          tauto

lemma sorted_insertKey {x : ℕ} :
    ∀ {l : List ℕ}, l.Sorted (· < ·) → (insertKey x l).Sorted (· < ·) := by
  intro l
  induction l with
  | nil => simp [insertKey]
  | cons z zs ih =>
      intro h
      rw [List.sorted_cons] at h
      by_cases h1 : x < z
      · rw [insertKey, if_pos h1, List.sorted_cons]
        refine ⟨?_, List.sorted_cons.mpr h⟩
        intro b hb
        rcases List.mem_cons.mp hb with rfl | hb
        · exact h1
        · exact lt_trans h1 (h.1 b hb)
      · by_cases h2 : x = z
        · rw [insertKey, if_neg h1, if_pos h2, List.sorted_cons]
          exact h
        · rw [insertKey, if_neg h1, if_neg h2, List.sorted_cons]
          refine ⟨?_, ih h.2⟩
          intro b hb
          rcases mem_insertKey.mp hb with rfl | hb
          · omega
          · exact h.1 b hb

lemma unionDates_sorted (series : List Series) :
    (unionDates series).Sorted (· < ·) := by
  rw [unionDates]
  induction series with
  | nil => simp
  | cons s rest ih =>
      simp only [List.foldr_cons]
      generalize (rest.foldr (fun s acc => (s.map Prod.fst).foldr insertKey acc)
        [] : List ℕ) = base at ih ⊢
      induction s.map Prod.fst with
      | nil => exact ih
      | cons k ks ih2 => exact sorted_insertKey ih2

lemma mem_unionDates {series : List Series} {t : ℕ} :
    t ∈ unionDates series ↔ ∃ s ∈ series, t ∈ s.map Prod.fst := by
  rw [unionDates]
  induction series with
  | nil => simp
  | cons s rest ih =>
      simp only [List.foldr_cons]
      have hbase : ∀ (ks : List ℕ) (acc : List ℕ),
          t ∈ ks.foldr insertKey acc ↔ t ∈ ks ∨ t ∈ acc := by
        intro ks
        induction ks with
        | nil => simp
        | cons k ks2 ih2 =>
            intro acc
            simp only [List.foldr_cons, mem_insertKey, ih2, List.mem_cons]
            tauto
      rw [hbase]
      simp only [List.mem_cons, ih]
      constructor
      · rintro (h | ⟨s2, hs2, ht⟩)
        · exact ⟨s, Or.inl rfl, h⟩
        · exact ⟨s2, Or.inr hs2, ht⟩
      · rintro ⟨s2, rfl | hs2, ht⟩
        · exact Or.inl ht
        · exact Or.inr ⟨s2, hs2, ht⟩

lemma lastObsAt_some_exists_key {t : ℕ} {v : ℚ} :
    ∀ {s : Series}, lastObsAt s t = some v → ∃ k ∈ s.map Prod.fst, k ≤ t := by
  intro s
  induction s with
  | nil => simp [lastObsAt]
  | cons kv rest ih =>
      obtain ⟨k, w⟩ := kv
      rw [lastObsAt]
      by_cases hk : k ≤ t
      · rw [if_pos hk]
        intro _
        exact ⟨k, by simp, hk⟩
      · rw [if_neg hk]
        intro h
        obtain ⟨k2, hm, hk2⟩ := ih h
        exact ⟨k2, List.mem_cons_of_mem _ hm, hk2⟩

lemma lookupKey_some_lastObs {s : Series} {d : ℕ} {v : ℚ}
    (hs : (s.map Prod.fst).Sorted (· < ·)) (h : lookupKey d s = some v) :
    lastObsAt s d = some v := by
  induction s with
  | nil => simp [lookupKey] at h
  | cons kv rest ih =>
      obtain ⟨k, w⟩ := kv
      rw [List.map_cons, List.sorted_cons] at hs
      by_cases hk : k = d
      · subst hk
        rw [lookupKey, if_pos rfl] at h
        injection h with h
        subst h
        have hrest : lastObsAt rest k = none := by
          rcases hr : lastObsAt rest k with _ | u
          · rfl
          · exfalso
            obtain ⟨key, hm, hk2⟩ := lastObsAt_some_exists_key hr
            exact absurd hk2 (not_le.mpr (hs.1 key hm))
        rw [lastObsAt, if_pos (le_refl _), hrest]
      · rw [lookupKey, if_neg hk] at h
        rw [lastObsAt]
        by_cases hkd : k ≤ d
        · rw [if_pos hkd, ih hs.2 h]
        · rw [if_neg hkd]
          exact ih hs.2 h

lemma lastObsAt_eq_none {s : Series} {t : ℕ}
    (h : ∀ k ∈ s.map Prod.fst, ¬k ≤ t) : lastObsAt s t = none := by
  rcases hr : lastObsAt s t with _ | v
  · rfl
  · obtain ⟨k, hm, hk⟩ := lastObsAt_some_exists_key hr
    exact absurd hk (h k hm)

lemma lastObsAt_congr {t1 t2 : ℕ} :
    ∀ {s : Series}, (∀ k ∈ s.map Prod.fst, (k ≤ t1 ↔ k ≤ t2)) →
      lastObsAt s t1 = lastObsAt s t2 := by
  intro s
  induction s with
  | nil => simp [lastObsAt]
  | cons kv rest ih =>
      obtain ⟨k, w⟩ := kv
      intro h
      have hk := h k (by simp)
      have hrest := ih fun k2 hk2 => h k2 (List.mem_cons_of_mem _ hk2)
      rw [lastObsAt, lastObsAt, hrest]
      by_cases hle : k ≤ t1
      · rw [if_pos hle, if_pos (hk.mp hle)]
      · rw [if_neg hle, if_neg (fun hc => hle (hk.mpr hc))]

lemma lastObsAt_mono {t1 t2 : ℕ} (h12 : t1 ≤ t2) {v : ℚ} :
    ∀ {s : Series}, lastObsAt s t1 = some v → ∃ w, lastObsAt s t2 = some w := by
  intro s
  induction s with
  | nil => simp [lastObsAt]
  | cons kv rest ih =>
      obtain ⟨k, w⟩ := kv
      rw [lastObsAt, lastObsAt]
      by_cases hle : k ≤ t1
      · rw [if_pos hle, if_pos (le_trans hle h12)]
        intro _
        rcases hr2 : lastObsAt rest t2 with _ | u
        · exact ⟨w, rfl⟩
        · exact ⟨u, rfl⟩
      · rw [if_neg hle]
        intro h
        obtain ⟨u, hu⟩ := ih h
        rw [hu]
        by_cases hle2 : k ≤ t2
        · rw [if_pos hle2]
          exact ⟨u, rfl⟩
        · rw [if_neg hle2]
          exact ⟨u, rfl⟩

/-- The last observation at or before an optional lower bound (`none`
is "before all time"). -/
def lastObsAtO (s : Series) : Option ℕ → Option ℚ
  | none => none
  | some t => lastObsAt s t

lemma ffill_go {s : Series} (hs : (s.map Prod.fst).Sorted (· < ·)) :
    ∀ (ds : List ℕ) (b : Option ℕ) (c : Option ℚ),
      ds.Sorted (· < ·) →
      (∀ d ∈ ds, ∀ x, b = some x → x < d) →
      (∀ k ∈ s.map Prod.fst, (∃ x, b = some x ∧ k ≤ x) ∨ k ∈ ds) →
      c = lastObsAtO s b →
      ffillCol c (ds.map fun d => lookupKey d s) =
        ds.map fun d => lastObsAt s d := by
  intro ds
  induction ds with
  | nil => intro b c _ _ _ _; rfl
  | cons d rest ih =>
      intro b c hsort hb hkeys hc
      rw [List.sorted_cons] at hsort
      rw [List.map_cons, List.map_cons]
      rcases hlk : lookupKey d s with _ | v
      · -- no observation exactly at d: the carry is forward-filled
        have hdnk : d ∉ s.map Prod.fst := lookupKey_eq_none_iff.mp hlk
        have hhead : c = lastObsAt s d := by
          rcases b with _ | x
          · rw [hc]
            refine (lastObsAt_eq_none ?_).symm
            intro k hk hkle
            rcases hkeys k hk with ⟨x, hx, _⟩ | hkin
            · exact Option.noConfusion hx
            · rcases List.mem_cons.mp hkin with rfl | hkin
              · exact hdnk hk
              · exact absurd hkle (not_le.mpr (hsort.1 k hkin))
          · have hxd : x < d := hb d (List.mem_cons_self _ _) x rfl
            rw [hc]
            refine (lastObsAt_congr ?_).symm
            intro k hk
            constructor
            · intro hkd
              rcases hkeys k hk with ⟨x2, hx2, hkx⟩ | hkin
              · injection hx2 with hx2
                subst hx2
                exact hkx
              · rcases List.mem_cons.mp hkin with rfl | hkin
                · exact absurd hk hdnk
                · exact absurd hkd (not_le.mpr (hsort.1 k hkin))
            · intro hkx
              exact le_trans hkx (le_of_lt hxd)
        rw [ffillCol, hhead]
        congr 1
        refine ih (some d) (lastObsAt s d) hsort.2 ?_ ?_ ?_
        · intro d2 hd2 x hx
          injection hx with hx
          subst hx
          exact hsort.1 d2 hd2
        · intro k hk
          rcases hkeys k hk with ⟨x, hx, hkx⟩ | hkin
          · rcases b with _ | x2
            · exact Option.noConfusion hx
            · injection hx with hx
              subst hx
              exact Or.inl ⟨d, rfl, le_trans hkx
                (le_of_lt (hb d (List.mem_cons_self _ _) x2 rfl))⟩
          · rcases List.mem_cons.mp hkin with rfl | hkin
            · exact Or.inl ⟨k, rfl, le_refl k⟩
            · exact Or.inr hkin
        · rfl
      · -- an observation exactly at d becomes the new carry
        have hlast : lastObsAt s d = some v := lookupKey_some_lastObs hs hlk
        have htail := ih (some d) (some v) hsort.2
          (by
            intro d2 hd2 x hx
            injection hx with hx
            subst hx
            exact hsort.1 d2 hd2)
          (by
            intro k hk
            rcases hkeys k hk with ⟨x, hx, hkx⟩ | hkin
            · rcases b with _ | x2
              · exact Option.noConfusion hx
              · injection hx with hx
                subst hx
                exact Or.inl ⟨d, rfl, le_trans hkx
                  (le_of_lt (hb d (List.mem_cons_self _ _) x2 rfl))⟩
            · rcases List.mem_cons.mp hkin with rfl | hkin
              · exact Or.inl ⟨k, rfl, le_refl k⟩
              · exact Or.inr hkin)
          hlast.symm
        show some v :: ffillCol (some v) (rest.map fun d => lookupKey d s) =
          lastObsAt s d :: rest.map fun d => lastObsAt s d
        rw [hlast, htail]

lemma alignedCol_spec (s : Series) (dates : List ℕ)
    (hs : (s.map Prod.fst).Sorted (· < ·)) (hdates : dates.Sorted (· < ·))
    (hsub : ∀ k ∈ s.map Prod.fst, k ∈ dates) :
    alignedCol s dates = dates.map fun d => lastObsAt s d :=
  ffill_go hs dates none none hdates (by simp)
    (fun k hk => Or.inr (hsub k hk)) rfl

lemma map_getD_range {α : Type} (l : List α) (d : α) :
    (List.range l.length).map (fun i => l.getD i d) = l := by
  apply List.ext_getElem
  · simp
  · intro i h1 h2
    simp only [List.getElem_map, List.getElem_range]
    rw [List.getD_eq_getElem?_getD, List.getElem?_eq_getElem h2]
    rfl

/-- The alignment contract of the outer-merge / forward-fill / dropna
pipeline: every retained cell is the input series' last observation at
or before the row's timestamp (never later); a merged timestamp is
retained iff every series has an observation at or before it (so the
leading partially-populated rows, and only they, are dropped); the rows
are strictly chronological; and population is monotone in time. -/
def AlignSpec (series : List Series) : Prop :=
  (∀ t row, (t, row) ∈ alignTable series →
      row = series.map (fun s => lastObsAt s t) ∧
        ∀ cell ∈ row, cell.isSome = true) ∧
  (∀ t, t ∈ unionDates series →
      ((∃ row, (t, row) ∈ alignTable series) ↔
        ∀ s ∈ series, ∃ v, lastObsAt s t = some v)) ∧
  ((alignTable series).map Prod.fst).Sorted (· < ·) ∧
  (∀ (s : Series) (t1 t2 : ℕ) (v : ℚ), t1 ≤ t2 → lastObsAt s t1 = some v →
      ∃ w, lastObsAt s t2 = some w)

/-- C7.  For strictly sorted canonical input series, the aligned table's
cells always equal the last observation at or before the row timestamp,
rows before the first timestamp at which every column is populated (and
only those) are dropped, and the table is chronologically sorted. -/
theorem C7_align_table (series : List Series)
    (hs : ∀ s ∈ series, (s.map Prod.fst).Sorted (· < ·)) :
    AlignSpec series := by
  unfold AlignSpec
  have hds : (unionDates series).Sorted (· < ·) := unionDates_sorted series
  have hcol : ∀ s ∈ series, alignedCol s (unionDates series) =
      (unionDates series).map fun d => lastObsAt s d :=
    fun s hsmem => alignedCol_spec s _ (hs s hsmem) hds
      (fun k hk => mem_unionDates.mpr ⟨s, hsmem, hk⟩)
  have hbuilt : ∀ i, i < (unionDates series).length →
      ((series.map fun s => alignedCol s (unionDates series)).map
        fun col => col.getD i none) =
        series.map fun s => lastObsAt s ((unionDates series).getD i 0) := by
    intro i hi
    rw [List.map_map]
    apply List.map_congr_left
    intro s hsmem
    show (alignedCol s (unionDates series)).getD i none =
      lastObsAt s ((unionDates series).getD i 0)
    rw [hcol s hsmem]
    exact getD_map _ _ 0 hi
  have hmem : ∀ t row, (t, row) ∈ alignTable series ↔
      ∃ i, i < (unionDates series).length ∧ t = (unionDates series).getD i 0 ∧
        row = series.map (fun s => lastObsAt s t) ∧ rowFull row = true := by
    intro t row
    rw [alignTable]
    rw [List.mem_filter, List.mem_map]
    constructor
    · rintro ⟨⟨i, hir, hieq⟩, hfull⟩
      rw [List.mem_range] at hir
      have h1 : t = (unionDates series).getD i 0 :=
        (congrArg Prod.fst hieq).symm
      have h2 : row = series.map fun s => lastObsAt s t := by
        have := congrArg Prod.snd hieq
        simp only at this
        rw [← this, hbuilt i hir, ← h1]
      exact ⟨i, hir, h1, h2, hfull⟩
    · rintro ⟨i, hir, h1, h2, hfull⟩
      refine ⟨⟨i, List.mem_range.mpr hir, ?_⟩, hfull⟩
      rw [hbuilt i hir, ← h1, ← h2]
  refine ⟨?_, ?_, ?_, fun s t1 t2 v h12 hv => lastObsAt_mono h12 hv⟩
  · intro t row hrow
    obtain ⟨i, hi, h1, h2, hfull⟩ := (hmem t row).mp hrow
    refine ⟨h2, ?_⟩
    intro cell hcell
    rw [rowFull, List.all_eq_true] at hfull
    exact hfull cell hcell
  · intro t ht
    constructor
    · rintro ⟨row, hrow⟩
      obtain ⟨i, hi, h1, h2, hfull⟩ := (hmem t row).mp hrow
      intro s hsmem
      rw [← Option.isSome_iff_exists]
      rw [rowFull, List.all_eq_true] at hfull
      exact hfull _ (h2 ▸ List.mem_map_of_mem (fun s => lastObsAt s t) hsmem)
    · intro hall
      obtain ⟨i, hi, hget⟩ := List.mem_iff_getElem.mp ht
      have hgetD : t = (unionDates series).getD i 0 := by
        rw [List.getD_eq_getElem?_getD, List.getElem?_eq_getElem hi]
        exact hget.symm
      refine ⟨series.map fun s => lastObsAt s t,
        (hmem t _).mpr ⟨i, hi, hgetD, rfl, ?_⟩⟩
      rw [rowFull, List.all_eq_true]
      intro cell hcell
      obtain ⟨s, hsmem, rfl⟩ := List.mem_map.mp hcell
      obtain ⟨v, hv⟩ := hall s hsmem
      rw [hv]
      rfl
  · have hsub : ((alignTable series).map Prod.fst).Sublist
        (unionDates series) := by
      have h1 : ((alignTable series).map Prod.fst).Sublist
          ((((List.range (unionDates series).length).map fun i =>
            ((unionDates series).getD i 0,
              (series.map fun s => alignedCol s (unionDates series)).map
                fun col => col.getD i none)).map Prod.fst)) := by
        apply List.Sublist.map
        exact List.filter_sublist _
      have h2 : (((List.range (unionDates series).length).map fun i =>
          ((unionDates series).getD i 0,
            (series.map fun s => alignedCol s (unionDates series)).map
              fun col => col.getD i none)).map Prod.fst) =
          unionDates series := by
        rw [List.map_map]
        exact map_getD_range (unionDates series) 0
      rw [← h2]
      exact h1
    exact hds.sublist hsub

/-- C7 counterexample.  Two series that never overlap in time —
`[(1, 10)]` and `[(10, 20)]` — produce a NON-empty aligned table: the
row at timestamp 10 is retained, with the first series' stale value 10
forward-filled into it, refuting the claim that non-overlapping inputs
yield an empty table. -/
theorem C7_nonoverlap_counterexample :
    (∀ k ∈ ([(1, (10 : ℚ))] : Series).map Prod.fst,
      k ∉ ([(10, (20 : ℚ))] : Series).map Prod.fst) ∧
    alignTable [[(1, 10)], [(10, 20)]] = [(10, [some 10, some 20])] := by
  constructor
  · decide
  · decide

/-- C7 witness: the alignment contract at two concrete sorted series. -/
theorem C7_align_table_witness :
    (∀ s ∈ ([[(1, (10 : ℚ)), (3, 11)], [(2, 5)]] : List Series),
      (s.map Prod.fst).Sorted (· < ·)) ∧
    AlignSpec [[(1, (10 : ℚ)), (3, 11)], [(2, 5)]] :=
  ⟨by decide, C7_align_table [[(1, 10), (3, 11)], [(2, 5)]] (by decide)⟩

end GlobalLiquidity
